import Mathlib

/-!
Verification development for the recall-lite indexing-and-retrieval engine
(`src-tauri/src/indexer.rs`, `src-tauri/src/config.rs`,
`src-tauri/src/indexer/file_io.rs`).

The Rust code is shallowly embedded here:
* Rust `&str` values handled byte-wise (`chunk_with_overlap`, which indexes by
  bytes and uses `is_char_boundary`) are modelled as `List Nat` of their UTF-8
  bytes; ASCII needles (`'\n'`, `". "`, `' '`) are searched at the byte level,
  which agrees with Rust's `str::rfind` on well-formed UTF-8.
* The unbounded `while` loop of `chunk_with_overlap` is modelled with explicit
  fuel: a `none` result means the loop did not finish within the given fuel,
  and `∀ fuel, … = none` means the Rust loop diverges.
* `f32` scores are modelled as `ℚ`, `i64`/`u64` values as `Int`/`Nat` with
  explicit wrap-around where the code casts.
* The LanceDB backend (vector/FTS query execution, table storage) is modelled
  as explicit state: a table is its schema plus its rows, a database is an
  association list of named tables, and backend query results are parameters.
-/

/-! ## Byte-level model of `chunk_with_overlap` (indexer.rs 544-579) -/

/-- A UTF-8 continuation byte, `0x80 ≤ b < 0xC0`; Rust's
`is_char_boundary` tests `(b as i8) >= -0x40`, i.e. not a continuation. -/
def contByte (b : Nat) : Bool := 0x80 ≤ b && b < 0xC0

/-- Rust `str::is_char_boundary`: true at 0 and at the length, and at any
index holding a non-continuation byte. -/
def isCharBoundary (bs : List Nat) (i : Nat) : Bool :=
  i == 0 ||
    match bs[i]? with
    | some b => !contByte b
    | none => i == bs.length

/-- The loop `while end < text.len() && !text.is_char_boundary(end) { end -= 1; }`. -/
def snapEnd (bs : List Nat) : Nat → Nat
  | 0 => 0
  | e + 1 => if e + 1 < bs.length && !isCharBoundary bs (e + 1) then snapEnd bs e else e + 1

/-- Rust `slice.rfind(c)` for a one-byte (ASCII) needle: byte index of the
last occurrence. -/
def rfindByte : List Nat → Nat → Option Nat
  | [], _ => none
  | b :: rest, t =>
    match rfindByte rest t with
    | some i => some (i + 1)
    | none => if b == t then some 0 else none

/-- Rust `slice.rfind(". ")` for a two-byte ASCII needle: start index of the
last occurrence. -/
def rfindPair : List Nat → Nat → Nat → Option Nat
  | b :: c :: rest, t1, t2 =>
    match rfindPair (c :: rest) t1 t2 with
    | some i => some (i + 1)
    | none => if b == t1 && c == t2 then some 0 else none
  | _, _, _ => none

/-- The byte slice `text[a..b]`. -/
def sliceBytes (bs : List Nat) (a b : Nat) : List Nat := (bs.drop a).take (b - a)

/-- The `split_at` computation of `chunk_with_overlap`:
`slice.rfind('\n').or(slice.rfind(". ")).or(slice.rfind(' ')).map(|i| start+i+1).unwrap_or(end)`
where `slice = &text[s..e]`. -/
def splitPos (bs : List Nat) (s e : Nat) : Nat :=
  let sl := sliceBytes bs s e
  match rfindByte sl 10 with
  | some i => s + i + 1
  | none =>
    match rfindPair sl 46 32 with
    | some i => s + i + 1
    | none =>
      match rfindByte sl 32 with
      | some i => s + i + 1
      | none => e

/-- The loop `while overlap_start > start && !text.is_char_boundary(overlap_start)
{ overlap_start += 1; }`, written with enough fuel to cover every reachable
state (the loop can only stop at or before `bs.length`, where a boundary sits). -/
def snapFwdAux (bs : List Nat) (start : Nat) : Nat → Nat → Nat
  | 0, i => i
  | k + 1, i => if start < i && !isCharBoundary bs i then snapFwdAux bs start k (i + 1) else i

/-- Entry point for the forward snap loop at initial index `i`. -/
def snapFwd (bs : List Nat) (start i : Nat) : Nat := snapFwdAux bs start (bs.length + 1 - i) i

/-- One iteration of the `chunk_with_overlap` loop body from cursor `s`:
either the final chunk (`break` case, `end >= text.len()`), or the produced
chunk together with the next cursor. -/
def chunkStep (bs : List Nat) (maxBytes overlapBytes s : Nat) : List Nat ⊕ (List Nat × Nat) :=
  let e := snapEnd bs (min (s + maxBytes) bs.length)
  if bs.length ≤ e then Sum.inl (bs.drop s)
  else
    let split := splitPos bs s e
    let rewind := min overlapBytes (split - s)
    Sum.inr (sliceBytes bs s split, snapFwd bs s (split - rewind))

/-- The `while start < text.len()` loop of `chunk_with_overlap`, with fuel;
`none` means the Rust loop has not terminated within `fuel` iterations. -/
def chunkLoop (bs : List Nat) (maxBytes overlapBytes : Nat) : Nat → Nat → Option (List (List Nat))
  | 0, _ => none
  | fuel + 1, s =>
    if s < bs.length then
      match chunkStep bs maxBytes overlapBytes s with
      | Sum.inl final => some [final]
      | Sum.inr (c, s') => (chunkLoop bs maxBytes overlapBytes fuel s').map (c :: ·)
    else some []

/-- `chunk_with_overlap(text, max_bytes, overlap_bytes)` on the UTF-8 bytes of
`text`, with explicit fuel for the outer loop. -/
def chunk_with_overlap (bs : List Nat) (maxBytes overlapBytes fuel : Nat) :
    Option (List (List Nat)) :=
  chunkLoop bs maxBytes overlapBytes fuel 0

/-! ## UTF-8 encoding and structural validity -/

/-- UTF-8 encoding of one Unicode scalar value. -/
def utf8Char (c : Nat) : List Nat :=
  if c < 0x80 then [c]
  else if c < 0x800 then [0xC0 + c / 0x40, 0x80 + c % 0x40]
  else if c < 0x10000 then [0xE0 + c / 0x1000, 0x80 + c / 0x40 % 0x40, 0x80 + c % 0x40]
  else [0xF0 + c / 0x40000, 0x80 + c / 0x1000 % 0x40, 0x80 + c / 0x40 % 0x40, 0x80 + c % 0x40]

/-- UTF-8 bytes of a string (the byte view Rust's `&str` slicing works on). -/
def utf8Str (s : String) : List Nat := (s.data.map fun c => utf8Char c.toNat).flatten

/-- Helper for `isValidUtf8`: `k` is the number of continuation bytes still
owed to the current unit. -/
def validAux : Nat → List Nat → Bool
  | 0, [] => true
  | 0, b :: rest =>
    if b < 0x80 then validAux 0 rest
    else if 0xC0 ≤ b && b < 0xE0 then validAux 1 rest
    else if 0xE0 ≤ b && b < 0xF0 then validAux 2 rest
    else if 0xF0 ≤ b && b < 0xF8 then validAux 3 rest
    else false
  | _ + 1, [] => false
  | k + 1, b :: rest => contByte b && validAux k rest

/-- Structural well-formedness of a UTF-8 byte sequence: a sequence of units,
each an ASCII byte or a lead byte followed by the right number of continuation
bytes.  Every byte sequence underlying a Rust `&str` satisfies this. -/
def isValidUtf8 (bs : List Nat) : Bool := validAux 0 bs

/-! ## `get_table_name` (config.rs 48-57) -/

/-- Rust `format!("{:04x}", c as u32)`: lowercase hex digits of the scalar
value, zero-padded on the left to at least four digits. -/
def hexEscape (n : Nat) : List Char :=
  let ds := Nat.toDigits 16 n
  List.replicate (4 - ds.length) '0' ++ ds

/-- Per-character sanitisation of `get_table_name`: ASCII alphanumerics and
`'_' '-' '.'` are kept, every other character is replaced by its
`{:04x}` escape. -/
def sanitizeChar (c : Char) : List Char :=
  if c.isAlphanum || c == '_' || c == '-' || c == '.' then [c]
  else hexEscape c.toNat

/-- `get_table_name(container)`: `format!("c_{}", sanitized)`. -/
def get_table_name (container : String) : String :=
  String.mk ('c' :: '_' :: (container.data.map sanitizeChar).flatten)

/-! ## `hybrid_merge` (indexer.rs 377-407)

The `HashMap<String, (String, f32)>` is modelled as an association list in
insertion order (the map's iteration order is unspecified in Rust; all facts
proved below are independent of that order except for the literal value of the
deterministic model), and `f32` scores as `ℚ`. -/

/-- `HashMap::insert` for the vector-results pass: replaces the value if the
key is present, otherwise appends. -/
def rrfInsert (m : List (String × String × ℚ)) (path snippet : String) (score : ℚ) :
    List (String × String × ℚ) :=
  if m.any fun e => e.1 == path then
    m.map fun e => if e.1 == path then (path, snippet, score) else e
  else m ++ [(path, snippet, score)]

/-- `entry().and_modify(|(_, s)| *s += score).or_insert((snippet, score))` for
the lexical-results pass. -/
def rrfUpsert (m : List (String × String × ℚ)) (path snippet : String) (score : ℚ) :
    List (String × String × ℚ) :=
  if m.any fun e => e.1 == path then
    m.map fun e => if e.1 == path then (e.1, e.2.1, e.2.2 + score) else e
  else m ++ [(path, snippet, score)]

/-- `hybrid_merge(vector_results, fts_results, limit)` with `k = 60`. -/
def hybrid_merge (vectorResults : List (String × String × ℚ))
    (ftsResults : List (String × String)) (limit : Nat) : List (String × String × ℚ) :=
  let k : ℚ := 60
  let m1 := vectorResults.enum.foldl
    (fun m ri => rrfInsert m ri.2.1 ri.2.2.1 (1 / (k + ri.1 + 1))) []
  let m2 := ftsResults.enum.foldl
    (fun m ri => rrfUpsert m ri.2.1 ri.2.2 (1 / (k + ri.1 + 1))) m1
  (m2.mergeSort fun a b => decide (b.2.2 ≤ a.2.2)).take limit

/-! ## Collection store model (indexer.rs 264-375, 433-506) -/

/-- Arrow data types used by `make_schema`. -/
inductive ArrowType
  | utf8
  | int64
  | float32
  | fixedSizeList (elem : ArrowType) (size : Int)
deriving DecidableEq

/-- An Arrow schema field. -/
structure ArrowField where
  name : String
  dtype : ArrowType
deriving DecidableEq

/-- One persisted chunk row `(path, content, vector, mtime)`. -/
structure Row where
  path : String
  content : List Nat
  vector : List ℚ
  mtime : Int
deriving DecidableEq

/-- A LanceDB table: its schema and its rows. -/
structure TableM where
  schema : List ArrowField
  rows : List Row
deriving DecidableEq

/-- Rust `n as i32` (two's-complement wrap). -/
def i32cast (n : Nat) : Int :=
  if n % 2 ^ 32 < 2 ^ 31 then ((n % 2 ^ 32 : Nat) : Int) else ((n % 2 ^ 32 : Nat) : Int) - 2 ^ 32

/-- Rust `n as i64` (two's-complement wrap). -/
def i64cast (n : Nat) : Int :=
  if n % 2 ^ 64 < 2 ^ 63 then ((n % 2 ^ 64 : Nat) : Int) else ((n % 2 ^ 64 : Nat) : Int) - 2 ^ 64

/-- `db.open_table(name)`: `none` models the `Err` of a missing table. -/
def openTable (db : List (String × TableM)) (n : String) : Option TableM :=
  (db.find? fun e => e.1 == n).map (·.2)

/-- `db.drop_table(name)`. -/
def dropTable (db : List (String × TableM)) (n : String) : List (String × TableM) :=
  db.filter fun e => e.1 != n

/-- `make_schema(dim)` (indexer.rs 492-506). -/
def make_schema (dim : Nat) : List ArrowField :=
  [⟨"path", .utf8⟩, ⟨"content", .utf8⟩,
   ⟨"vector", .fixedSizeList .float32 (i32cast dim)⟩, ⟨"mtime", .int64⟩]

/-- Arrow `Schema::field_with_name`. -/
def fieldWithName (schema : List ArrowField) (n : String) : Option ArrowField :=
  schema.find? fun f => f.name == n

/-- `get_or_create_table(db, table_name, dim)` (indexer.rs 465-490): reuse the
existing table iff its `vector` field is a fixed-size list of width
`dim as i32` and an `mtime` field exists; otherwise drop it (if present) and
create an empty table with `make_schema dim`.  Returns the updated database
and the table handed back to the caller. -/
def get_or_create_table (db : List (String × TableM)) (tableName : String) (dim : Nat) :
    List (String × TableM) × TableM :=
  let fresh : TableM := ⟨make_schema dim, []⟩
  match openTable db tableName with
  | some t =>
    let hasMtime := (fieldWithName t.schema "mtime").isSome
    let keep :=
      match fieldWithName t.schema "vector" with
      | some f =>
        match f.dtype with
        | .fixedSizeList _ size => size == i32cast dim && hasMtime
        | _ => false
      | none => false
    if keep then (db, t)
    else (dropTable db tableName ++ [(tableName, fresh)], fresh)
  | none => (db ++ [(tableName, fresh)], fresh)

/-! ## Search models (indexer.rs 264-375) -/

/-- One row of a vector-search result batch (`path`, `content`, `_distance`). -/
structure SearchRow where
  path : String
  content : String
  distance : ℚ
deriving DecidableEq

/-- The `best_per_file` deduplication of `search_files`: keep, per path, the
row with the smallest distance (an existing entry with distance `≤` the new
one wins). -/
def bestPerFile (rows : List SearchRow) : List (String × String × ℚ) :=
  rows.foldl
    (fun m r =>
      match m.find? fun e => e.1 == r.path with
      | some e =>
        if e.2.2 ≤ r.distance then m
        else m.map fun e' => if e'.1 == r.path then (r.path, r.content, r.distance) else e'
      | none => m ++ [(r.path, r.content, r.distance)])
    []

/-- `search_files(db, table_name, query_vector, limit)`: if the table cannot
be opened, return `Ok(vec![])`; otherwise run the backend vector query with
`limit * 3`, deduplicate per file, sort ascending by distance, truncate.
The LanceDB query execution is the `backend` parameter. -/
def search_files (db : List (String × TableM)) (tableName : String) (queryVector : List ℚ)
    (limit : Nat) (backend : TableM → List ℚ → Nat → Except String (List SearchRow)) :
    Except String (List (String × String × ℚ)) :=
  match openTable db tableName with
  | none => Except.ok []
  | some t =>
    (backend t queryVector (limit * 3)).map fun rows =>
      ((bestPerFile rows).mergeSort fun a b => decide (a.2.2 ≤ b.2.2)).take limit

/-- The row loop of `search_fts`: push first occurrence of each path, and
return as soon as `matches.len() >= limit` (checked after every row). -/
def ftsCollect (limit : Nat) :
    List (String × String) → List String → List (String × String) → List (String × String)
  | [], _, acc => acc
  | (p, c) :: rest, seen, acc =>
    let st := if seen.contains p then (seen, acc) else (p :: seen, acc ++ [(p, c)])
    if limit ≤ st.2.length then st.2 else ftsCollect limit rest st.1 st.2

/-- `search_fts(db, table_name, query, limit)`: missing table gives
`Ok(vec![])`; otherwise the backend full-text query is deduplicated by path
(first occurrence wins) up to `limit`. -/
def search_fts (db : List (String × TableM)) (tableName : String) (query : String)
    (limit : Nat) (backend : TableM → String → Nat → Except String (List (String × String))) :
    Except String (List (String × String)) :=
  match openTable db tableName with
  | none => Except.ok []
  | some t => (backend t query limit).map fun rows => ftsCollect limit rows [] []

/-! ## `get_file_mtime` (file_io.rs 103-110, indexer.rs 81-88) -/

/-- `get_file_mtime(path)`.  The filesystem metadata of the path is modelled
as `meta : Option Int`: `none` when `fs::metadata` or `modified()` fails,
`some t` the modification time in whole seconds relative to the Unix epoch
(negative when before the epoch, in which case `duration_since` errors and
the `unwrap_or(0)` fires); nonnegative times go through `as_secs() as i64`. -/
def get_file_mtime (meta : Option Int) : Int :=
  match meta with
  | none => 0
  | some t => if t < 0 then 0 else i64cast t.toNat

/-! ## `index_directory` model (indexer.rs 160-262)

The directory walk is a list of `FileEntry`, each carrying the path, the
on-disk mtime, and the result of `read_file_content` for that path.  The
embedding model is a parameter `embed`; batching in groups of 64 produces the
same final row list as per-chunk embedding, so the model embeds chunk-wise,
and an embedding failure (which aborts the Rust run with `Err`) makes the
model return `none`. -/

/-- One file met by the directory walk: its path, current on-disk mtime and
the result of `read_file_content`. -/
structure FileEntry where
  path : String
  mtime : Int
  content : Option String
deriving DecidableEq

/-- A staged chunk (`PendingChunk`). -/
structure PendingChunk where
  path : String
  content : List Nat
  mtime : Int
deriving DecidableEq

/-- `HashMap::insert` while building the `path -> mtime` map. -/
def upsertMtime (m : List (String × Int)) (p : String) (t : Int) : List (String × Int) :=
  if m.any fun e => e.1 == p then m.map fun e => if e.1 == p then (p, t) else e
  else m ++ [(p, t)]

/-- `get_indexed_mtimes(table)` (indexer.rs 433-463): scan the rows into a
`path -> mtime` map (a later row for the same path overwrites). -/
def get_indexed_mtimes (rows : List Row) : List (String × Int) :=
  rows.foldl (fun m r => upsertMtime m r.path r.mtime) []

/-- `existing_mtimes.get(&path)`. -/
def lookupMtime (m : List (String × Int)) (p : String) : Option Int :=
  (m.find? fun e => e.1 == p).map (·.2)

/-- Loop state of the per-file walk: current table rows, staged chunks, and
the `files_seen` counter. -/
structure WalkAcc where
  rows : List Row
  pending : List PendingChunk
  filesSeen : Nat
deriving DecidableEq

/-- `CHUNK_MAX_BYTES` (indexer.rs 25). -/
def CHUNK_MAX_BYTES : Nat := 800

/-- `CHUNK_OVERLAP_BYTES` (indexer.rs 26). -/
def CHUNK_OVERLAP_BYTES : Nat := 200

/-- `ANN_INDEX_THRESHOLD` (indexer.rs 27). -/
def ANN_INDEX_THRESHOLD : Nat := 256

/-- One iteration of the walk loop (indexer.rs 184-219): skip when the stored
mtime equals the on-disk one; otherwise read; unsupported/empty content is
passed over; otherwise delete the path's rows, chunk, and stage the chunks.
`fuel` bounds the `chunk_with_overlap` loop; `none` means that call diverged.
Rust's emptiness test `t.trim().is_empty()` holds exactly when every char is
whitespace, which is how it is written here. -/
def stepFile (existing : List (String × Int)) (fuel : Nat) (acc : WalkAcc) (f : FileEntry) :
    Option WalkAcc :=
  if lookupMtime existing f.path = some f.mtime then
    some { acc with filesSeen := acc.filesSeen + 1 }
  else
    match f.content with
    | some t =>
      if t.data.all Char.isWhitespace then some acc
      else
        match chunk_with_overlap (utf8Str t) CHUNK_MAX_BYTES CHUNK_OVERLAP_BYTES fuel with
        | none => none
        | some chunks =>
          some ⟨acc.rows.filter fun r => r.path ≠ f.path,
                acc.pending ++ chunks.map fun c => ⟨f.path, c, f.mtime⟩,
                acc.filesSeen + 1⟩
    | none => some acc

/-- The whole walk over the file list. -/
def walkFold (existing : List (String × Int)) (fuel : Nat) :
    WalkAcc → List FileEntry → Option WalkAcc
  | acc, [] => some acc
  | acc, f :: fs =>
    match stepFile existing fuel acc f with
    | none => none
    | some acc' => walkFold existing fuel acc' fs

/-- `PASSAGE_PREFIX` as bytes (indexer.rs 24, 106-114): passages are embedded
with this marker prepended. -/
def passageMarker : List Nat := utf8Str "passage: "

/-- Result of one indexing run: the return value (`files_indexed`), the final
table rows, whether the ANN and FTS index builds were invoked, and the final
`files_seen` counter. -/
structure RunResult where
  filesIndexed : Nat
  rows : List Row
  annBuilt : Bool
  ftsBuilt : Bool
  filesSeen : Nat
deriving DecidableEq

/-- `index_directory` (indexer.rs 166-262) after `get_or_create_table`: walk
the files, early-return `Ok(0)` when nothing was staged (before any index
build), otherwise embed and append all staged chunks, build the ANN index iff
`files_seen >= ANN_INDEX_THRESHOLD`, and build the FTS index. -/
def index_directory (existingRows : List Row) (files : List FileEntry)
    (embed : List Nat → Option (List ℚ)) (fuel : Nat) : Option RunResult :=
  match walkFold (get_indexed_mtimes existingRows) fuel ⟨existingRows, [], 0⟩ files with
  | none => none
  | some acc =>
    if acc.pending = [] then
      some ⟨0, acc.rows, false, false, acc.filesSeen⟩
    else
      match acc.pending.mapM
          (fun c => (embed (passageMarker ++ c.content)).map
            fun v => Row.mk c.path c.content v c.mtime) with
      | none => none
      | some newRows =>
        some ⟨(acc.pending.map (·.path)).dedup.length, acc.rows ++ newRows,
              decide (ANN_INDEX_THRESHOLD ≤ acc.filesSeen), true, acc.filesSeen⟩

/-! ## Derived decision predicates and fixtures used by the theorems -/

/-- The three possible fates of a file in the walk loop: `skip` (stored mtime
equals the on-disk one: no read, no delete, no chunking), `pass` (mtime check
failed but `read_file_content` gave nothing or only whitespace), `proc`
(file is re-read, its rows deleted, its chunks staged). -/
inductive StepKind
  | skip
  | pass
  | proc
deriving DecidableEq

/-- The decision `stepFile` takes for file `f`, read off the same conditions
in the same order as the code. -/
def classify (existing : List (String × Int)) (f : FileEntry) : StepKind :=
  if lookupMtime existing f.path = some f.mtime then .skip
  else
    match f.content with
    | some t => if t.data.all Char.isWhitespace then .pass else .proc
    | none => .pass

/-- Whether `f` gets (re)processed. -/
def isProc (existing : List (String × Int)) (f : FileEntry) : Bool :=
  classify existing f == .proc

/-- Paths of the files that get (re)processed during a walk. -/
def procPaths (existing : List (String × Int)) (files : List FileEntry) : List String :=
  (files.filter (isProc existing)).map (·.path)

/-- The pending chunks file `f` contributes (empty unless `f` is processed;
`none` when its chunking diverges within `fuel`). -/
def filePending (existing : List (String × Int)) (fuel : Nat) (f : FileEntry) :
    Option (List PendingChunk) :=
  if isProc existing f then
    match f.content with
    | some t =>
      (chunk_with_overlap (utf8Str t) CHUNK_MAX_BYTES CHUNK_OVERLAP_BYTES fuel).map
        (List.map fun c => ⟨f.path, c, f.mtime⟩)
    | none => some []
  else some []

/-- How many files increment `files_seen` (skipped-as-unchanged and processed
files do; files passed over for lack of content do not). -/
def seenCount (existing : List (String × Int)) (files : List FileEntry) : Nat :=
  (files.filter fun f => classify existing f != .pass).length

/-- Width of the `vector` column when it is a fixed-size list. -/
def vectorWidth (t : TableM) : Option Int :=
  match fieldWithName t.schema "vector" with
  | some f =>
    match f.dtype with
    | .fixedSizeList _ size => some size
    | _ => none
  | none => none

/-- An (adversarial) table whose `vector` column is a fixed-size list of
int64 of width 3, with an `mtime` column. -/
def intVecTable : TableM :=
  ⟨[⟨"vector", .fixedSizeList .int64 3⟩, ⟨"mtime", .int64⟩], []⟩

/-- A database holding `intVecTable` under name `"t"`. -/
def intVecDb : List (String × TableM) := [("t", intVecTable)]

/-- The RRF contribution of 0-based rank `r`: `1 / (60 + r + 1)`. -/
def rrfScore (r : Nat) : ℚ := 1 / (60 + (r : ℚ) + 1)

/-- Contribution of path `p` from the vector result list. -/
def vecContrib (vec : List (String × String × ℚ)) (p : String) : ℚ :=
  match vec.findIdx? fun e => e.1 == p with
  | some r => rrfScore r
  | none => 0

/-- Contribution of path `p` from the lexical result list. -/
def ftsContrib (fts : List (String × String)) (p : String) : ℚ :=
  match fts.findIdx? fun e => e.1 == p with
  | some r => rrfScore r
  | none => 0

/-- The vector results of the spec's hybrid-merge example. -/
def exVectorResults : List (String × String × ℚ) := [("a", "sa", 1 / 10), ("b", "sb", 2 / 10)]

/-- The lexical results of the spec's hybrid-merge example. -/
def exFtsResults : List (String × String) := [("b", "sb"), ("c", "sc")]

/-- 256 pre-indexed rows with pairwise distinct single-character paths and
mtime 0. -/
def exSkipRows : List Row :=
  (List.range 256).map fun i => ⟨String.mk [Char.ofNat i], [], [], 0⟩

/-- The corresponding 256 on-disk files, unchanged (mtime still 0). -/
def exSkipFiles : List FileEntry :=
  (List.range 256).map fun i => ⟨String.mk [Char.ofNat i], 0, none⟩

/-- One genuinely new file. -/
def exNewFile : FileEntry := ⟨"zz", 5, some "hi"⟩

/-- A text on which `chunk_with_overlap` with the production parameters
(800, 200) loops forever: the split lands 2 bytes after the chunk start, the
rewind of `min(200, 2)` returns the cursor to its old position, and the loop
repeats identically. -/
def stuckText : String := "a\n" ++ String.mk (List.replicate 900 'b')

/-- The UTF-8 bytes of `stuckText`. -/
def stuckBytes : List Nat := 97 :: 10 :: List.replicate 900 98

/-- Tail of the overlap-removed reconstruction: each later chunk re-enters
the text `o` bytes before its predecessor's end, so its first `o` bytes are
dropped. -/
def reconTail : List (List Nat) → List Nat → List Nat
  | [], _ => []
  | c :: rest, [] => c ++ reconTail rest []
  | c :: rest, o :: os => c.drop o ++ reconTail rest os

/-- Concatenation of the chunks with the overlap prefixes removed, given the
per-gap overlap widths `os`. -/
def reconWith : List (List Nat) → List Nat → List Nat
  | [], _ => []
  | c :: rest, os => c ++ reconTail rest os

/-- Checks that `os` has exactly one entry per adjacent chunk pair and that
each overlap width `o` really is shared text: the last `o` bytes of the
predecessor equal the first `o` bytes of the successor. -/
def agreeWith : List (List Nat) → List Nat → Bool
  | [], [] => true
  | _ :: [], [] => true
  | c1 :: c2 :: rest, o :: os =>
    decide (o ≤ c1.length) && decide (o ≤ c2.length) &&
      (c2.take o == c1.drop (c1.length - o)) && agreeWith (c2 :: rest) os
  | _, _ => false

/-- Geometric skeleton of a chunk run: chunks are successive slices
`bs[s..σ]`, each later chunk starts at most at its predecessor's end and ends
no earlier, and the last chunk runs to the end of the text. -/
inductive Cover (bs : List Nat) : Nat → List (List Nat) → Prop
  | nil (s : Nat) : bs.length ≤ s → Cover bs s []
  | single (s : Nat) : s < bs.length → Cover bs s [bs.drop s]
  | cons (s σ s' : Nat) (c : List Nat) (rest : List (List Nat)) :
      s ≤ σ → s' ≤ σ → s ≤ s' → σ < bs.length →
      Cover bs s' (c :: rest) → σ - s' ≤ c.length →
      Cover bs s (sliceBytes bs s σ :: c :: rest)


/-- Observable of the fused score map: the summed score recorded for a path
(0 when the path is absent). -/
def scoreOf (m : List (String × String × ℚ)) (p : String) : ℚ :=
  match m.find? fun e => e.1 == p with
  | some e => e.2.2
  | none => 0

/-! ## Generic association-list lemmas -/

/-- Mapping a key-preserving function over an association list commutes with
keyed lookup. -/
theorem find?_map_key {α : Type} (m : List (String × α)) (v : String × α → String × α)
    (hv : ∀ e, (v e).1 = e.1) (p : String) :
    (m.map v).find? (fun e => e.1 == p) = (m.find? fun e => e.1 == p).map v := by
  induction m with
  | nil => rfl
  | cons e rest ih =>
    by_cases h : e.1 = p
    · rw [List.map_cons, List.find?_cons_of_pos _ (by simp [hv, h]),
        List.find?_cons_of_pos _ (by simp [h]), Option.map_some']
    · rw [List.map_cons, List.find?_cons_of_neg _ (by simp [hv, h]),
        List.find?_cons_of_neg _ (by simp [h]), ih]

/-- Keyed lookup after `upsertMtime`: the updated key reads back the new
value, everything else is unchanged. -/
theorem lookupMtime_upsert (m : List (String × Int)) (p0 p : String) (t : Int) :
    lookupMtime (upsertMtime m p0 t) p = if p = p0 then some t else lookupMtime m p := by
  unfold upsertMtime lookupMtime
  by_cases hin : m.any fun e => e.1 == p0
  · rw [if_pos hin, find?_map_key _ _ (by intro e; by_cases h : e.1 = p0 <;> simp [h])]
    by_cases hp : p = p0
    · subst hp
      obtain ⟨e, he, hep⟩ := List.any_eq_true.1 hin
      obtain ⟨e0, he0⟩ := Option.isSome_iff_exists.1
        ((@List.find?_isSome _ m (fun e => e.1 == p)).2 ⟨e, he, hep⟩)
      rw [he0, if_pos rfl]
      have := List.find?_some he0
      simp only [beq_iff_eq] at this
      simp [this]
    · rw [if_neg hp]
      cases he0 : m.find? fun e => e.1 == p with
      | none => rfl
      | some e0 =>
        have := List.find?_some he0
        simp only [beq_iff_eq] at this
        simp only [Option.map_some', this]
        rw [if_neg (by simpa using hp)]
  · rw [if_neg hin, List.find?_append]
    by_cases hp : p = p0
    · subst hp
      have hnone : (m.find? fun e => e.1 == p) = none := by
        rw [List.find?_eq_none]
        intro x hx hpx
        exact hin (List.any_eq_true.2 ⟨x, hx, hpx⟩)
      rw [hnone]
      simp
    · cases he0 : m.find? fun e => e.1 == p with
      | none => simp [if_neg hp, Ne.symm hp, hp]
      | some e0 => simp [if_neg hp]

/-! ## C10: totality of `get_file_mtime` and its skip interaction -/

/-- C10: `get_file_mtime` is total and returns 0 whenever the metadata or
modification time cannot be read or the time lies before the Unix epoch; a
file whose mtime evaluates to 0 is then skipped by `stepFile` against any
stored row recording mtime 0 (rows kept, nothing staged). -/
theorem c10_get_file_mtime_total (meta : Option Int) (h : ∀ t, meta = some t → t < 0) :
    get_file_mtime meta = 0 ∧
      ∀ (existing : List (String × Int)) (fuel : Nat) (acc : WalkAcc) (p : String)
        (content : Option String), lookupMtime existing p = some 0 →
        stepFile existing fuel acc ⟨p, get_file_mtime meta, content⟩ =
          some ⟨acc.rows, acc.pending, acc.filesSeen + 1⟩ := by
  have h0 : get_file_mtime meta = 0 := by
    cases meta with
    | none => rfl
    | some t => simp [get_file_mtime, h t rfl]
  refine ⟨h0, fun existing fuel acc p content hl => ?_⟩
  unfold stepFile
  rw [if_pos (by rw [h0]; exact hl)]

/-- Witness for C10 at a concrete pre-epoch time and a concrete store. -/
theorem c10_witness :
    get_file_mtime (some (-5)) = 0 ∧
      stepFile [("p", 0)] 1 ⟨[], [], 0⟩ ⟨"p", get_file_mtime (some (-5)), some "x"⟩ =
        some ⟨[], [], 1⟩ := by
  have h := c10_get_file_mtime_total (some (-5))
    (by intro t ht; injection ht with ht'; rw [← ht']; decide)
  exact ⟨h.1, h.2 [("p", 0)] 1 ⟨[], [], 0⟩ "p" (some "x") (by decide)⟩

/-! ## C9: missing table gives `Ok(vec![])` -/

/-- C9: when the collection's table cannot be opened, both `search_files` and
`search_fts` succeed with an empty result list, for every query, limit and
backend behaviour. -/
theorem c9_missing_table_empty (db : List (String × TableM)) (tableName : String)
    (h : openTable db tableName = none) :
    (∀ (queryVector : List ℚ) (limit : Nat)
        (backend : TableM → List ℚ → Nat → Except String (List SearchRow)),
        search_files db tableName queryVector limit backend = Except.ok []) ∧
      (∀ (query : String) (limit : Nat)
        (backend : TableM → String → Nat → Except String (List (String × String))),
        search_fts db tableName query limit backend = Except.ok []) := by
  constructor <;> intros <;> simp [search_files, search_fts, h]

/-- Witness for C9 on an empty database with an error-throwing backend. -/
theorem c9_witness :
    search_files [] "docs" [1] 5 (fun _ _ _ => Except.error "backend down") = Except.ok [] ∧
      search_fts [] "docs" "q" 5 (fun _ _ _ => Except.error "backend down") = Except.ok [] :=
  ⟨(c9_missing_table_empty [] "docs" rfl).1 [1] 5 _,
   (c9_missing_table_empty [] "docs" rfl).2 "q" 5 _⟩

/-! ## C8: `get_table_name` is deterministic but not injective -/

/-- C8 counterexample: the four-hex-digit escape of `'!'` collides with the
literal collection name `"0021"`, so two distinct names share one table. -/
theorem c8_counterexample :
    get_table_name "!" = get_table_name "0021" ∧ "!" ≠ "0021" := by
  constructor <;> decide

/-- C8 amended: `get_table_name` is a pure function (deterministic) and is
injective on collection names built only from kept characters (ASCII
alphanumerics, `'_'`, `'-'`, `'.'`); in general distinct names may collide. -/
theorem c8_amended_injective_on_kept (a b : String)
    (ha : ∀ c ∈ a.data, sanitizeChar c = [c]) (hb : ∀ c ∈ b.data, sanitizeChar c = [c])
    (h : get_table_name a = get_table_name b) : a = b := by
  have key : ∀ l : List Char, (∀ c ∈ l, sanitizeChar c = [c]) →
      (l.map sanitizeChar).flatten = l := by
    intro l hl
    induction l with
    | nil => rfl
    | cons c rest ih =>
      simp only [List.map_cons, List.flatten_cons, hl c (by simp),
        ih fun c' hc' => hl c' (by simp [hc'])]
      rfl
  unfold get_table_name at h
  have h2 := congrArg String.data h
  simp only [key a.data ha, key b.data hb] at h2
  exact congrArg String.mk (by injection h2 with _ h3; injection h3)

/-- Witness for C8's amended statement on a concrete kept-character name. -/
theorem c8_amended_witness : ("A-1.b_" : String) = "A-1.b_" :=
  c8_amended_injective_on_kept "A-1.b_" "A-1.b_" (by decide) (by decide) rfl

/-! ## C2: `chunk_with_overlap` does not terminate on all inputs -/

/-- A state the loop body maps to itself is never left: the Rust loop
diverges from it. -/
theorem chunkLoop_stuck (bs : List Nat) (maxB ovB s : Nat) (c : List Nat)
    (h : chunkStep bs maxB ovB s = Sum.inr (c, s)) (hs : s < bs.length) :
    ∀ fuel, chunkLoop bs maxB ovB fuel s = none := by
  intro fuel
  induction fuel with
  | zero => rfl
  | succ n ih => simp [chunkLoop, hs, h, ih]

set_option maxRecDepth 100000 in
/-- C2: `chunk_with_overlap` loops forever on the real text
`"a\n" ++ "b"*900` with the production parameters `(800, 200)`: the first
window's last newline makes the chunk 2 bytes long, the overlap rewind
returns the cursor to 0, and the loop repeats identically, so no amount of
fuel completes the loop. -/
theorem c2_chunk_nontermination :
    stuckBytes = utf8Str stuckText ∧ isValidUtf8 stuckBytes = true ∧
      ∀ fuel, chunk_with_overlap stuckBytes 800 200 fuel = none := by
  refine ⟨by decide, by decide, fun fuel => ?_⟩
  exact chunkLoop_stuck _ _ _ _ (97 :: [10]) (by decide) (by decide) fuel

/-! ## C5: schema reconciliation in `get_or_create_table` -/

/-- Casting a `Nat` below `2^31` to `i32` is the identity. -/
theorem i32cast_small (n : Nat) (h : n < 2 ^ 31) : i32cast n = n := by
  unfold i32cast
  rw [Nat.mod_eq_of_lt (by omega : n < 2 ^ 32), if_pos h]

/-- C5 counterexample: a pre-existing table whose `vector` column is a
fixed-size list of `int64` of the right width (with an `mtime` column) is
reused as-is, so the returned table's vector column is not a float list. -/
theorem c5_counterexample :
    get_or_create_table intVecDb "t" 3 = (intVecDb, intVecTable) ∧
      fieldWithName intVecTable.schema "vector" =
        some ⟨"vector", ArrowType.fixedSizeList ArrowType.int64 3⟩ ∧
      ArrowType.int64 ≠ ArrowType.float32 := by
  refine ⟨by decide, rfl, by decide⟩

/-- C5 amended: `get_or_create_table` always returns a table whose `vector`
column is a fixed-size list of width exactly `dim` and which has an `mtime`
column (the element type and the remaining columns are not checked); a table
failing the width/mtime check is dropped and replaced by an empty table with
the expected schema; consequently, if the pre-existing table's rows conformed
to its schema, all rows of the returned table have vector length `dim`. -/
theorem c5_schema_amended (db : List (String × TableM)) (tableName : String) (dim : Nat)
    (hdim : dim < 2 ^ 31)
    (hconf : ∀ t0, openTable db tableName = some t0 →
      ∀ r ∈ t0.rows, vectorWidth t0 = some (r.vector.length : Int)) :
    vectorWidth (get_or_create_table db tableName dim).2 = some (dim : Int) ∧
      (fieldWithName (get_or_create_table db tableName dim).2.schema "mtime").isSome = true ∧
      (∀ r ∈ (get_or_create_table db tableName dim).2.rows, (r.vector.length : Int) = dim) ∧
      ∀ t0, openTable db tableName = some t0 →
        ¬(vectorWidth t0 = some (i32cast dim) ∧
            (fieldWithName t0.schema "mtime").isSome = true) →
        (get_or_create_table db tableName dim).2 = ⟨make_schema dim, []⟩ := by
  have hfreshv : vectorWidth ⟨make_schema dim, []⟩ = some (i32cast dim) := rfl
  have hfreshm : (fieldWithName (make_schema dim) "mtime").isSome = true := rfl
  cases hop : openTable db tableName with
  | none =>
    refine ⟨?_, ?_, ?_, ?_⟩ <;>
      simp [get_or_create_table, hop, hfreshv, hfreshm, i32cast_small dim hdim]
  | some t0 =>
    cases hvf : fieldWithName t0.schema "vector" with
    | none =>
      refine ⟨?_, ?_, ?_, ?_⟩ <;>
        simp [get_or_create_table, hop, hvf, hfreshv, hfreshm, i32cast_small dim hdim]
    | some f =>
      cases hdt : f.dtype with
      | fixedSizeList elemT size =>
        by_cases hsz : size = i32cast dim ∧ (fieldWithName t0.schema "mtime").isSome = true
        · obtain ⟨hsz1, hsz2⟩ := hsz
          have hkeep : get_or_create_table db tableName dim = (db, t0) := by
            simp [get_or_create_table, hop, hvf, hdt, hsz1, hsz2]
          have hw : vectorWidth t0 = some (i32cast dim) := by
            simp [vectorWidth, hvf, hdt, hsz1]
          refine ⟨?_, ?_, ?_, ?_⟩
          · rw [hkeep]
            simpa [i32cast_small dim hdim] using hw
          · rw [hkeep]
            exact hsz2
          · intro r hr
            rw [hkeep] at hr
            have hr' : r ∈ t0.rows := hr
            have hc := hconf t0 hop r hr'
            rw [hw] at hc
            have hc' := Option.some.inj hc
            rw [← hc', i32cast_small dim hdim]
          · intro t1 hop1 hne
            cases Option.some.inj hop1
            exact absurd ⟨hw, hsz2⟩ hne
        · have hrebuild : get_or_create_table db tableName dim =
              (dropTable db tableName ++ [(tableName, ⟨make_schema dim, []⟩)],
               ⟨make_schema dim, []⟩) := by
            rcases Decidable.not_and_iff_or_not.1 hsz with h1 | h2
            · simp [get_or_create_table, hop, hvf, hdt, h1]
            · have : (fieldWithName t0.schema "mtime").isSome = false := by
                simpa using h2
              simp [get_or_create_table, hop, hvf, hdt, this]
          refine ⟨?_, ?_, ?_, ?_⟩ <;>
            simp [hrebuild, hfreshv, hfreshm, i32cast_small dim hdim]
      | utf8 =>
        refine ⟨?_, ?_, ?_, ?_⟩ <;>
          simp [get_or_create_table, hop, hvf, hdt, hfreshv, hfreshm, i32cast_small dim hdim]
      | int64 =>
        refine ⟨?_, ?_, ?_, ?_⟩ <;>
          simp [get_or_create_table, hop, hvf, hdt, hfreshv, hfreshm, i32cast_small dim hdim]
      | float32 =>
        refine ⟨?_, ?_, ?_, ?_⟩ <;>
          simp [get_or_create_table, hop, hvf, hdt, hfreshv, hfreshm, i32cast_small dim hdim]

/-- Witness for C5's amended statement: a fresh database, `dim = 4`. -/
theorem c5_witness :
    vectorWidth (get_or_create_table [] "docs" 4).2 = some (4 : Int) ∧
      (fieldWithName (get_or_create_table [] "docs" 4).2.schema "mtime").isSome = true ∧
      ∀ r ∈ (get_or_create_table [] "docs" 4).2.rows, (r.vector.length : Int) = 4 := by
  have h := c5_schema_amended [] "docs" 4 (by norm_num)
    (by intro t0 h0; exact absurd h0 (by simp [openTable]))
  exact ⟨h.1, h.2.1, h.2.2.1⟩

/-! ## C7 and C6: which index builds a run invokes -/

/-- C7 amended: the FTS index build is invoked at the end of a successful run
iff the run staged at least one chunk (equivalently returned a positive
count); a run with nothing to (re)process returns `Ok(0)` early, before any
index build. -/
theorem c7_fts_amended (existingRows : List Row) (files : List FileEntry)
    (embed : List Nat → Option (List ℚ)) (fuel : Nat) (res : RunResult)
    (h : index_directory existingRows files embed fuel = some res) :
    res.ftsBuilt = true ↔ 0 < res.filesIndexed := by
  unfold index_directory at h
  split at h
  · exact absurd h (by simp)
  · rename_i acc hw
    split at h
    · cases Option.some.inj h
      simp
    · rename_i hp
      split at h
      · exact absurd h (by simp)
      · rename_i newRows hm
        cases Option.some.inj h
        simp only [true_iff]
        have : acc.pending.map (·.path) ≠ [] := by
          simpa using hp
        have hd : (acc.pending.map (·.path)).dedup ≠ [] := by
          rw [ne_eq, List.dedup_eq_nil]
          exact this
        exact List.length_pos.2 hd

/-- C7 counterexample: a run over one unchanged file returns `Ok(0)` without
invoking the FTS (or ANN) index build. -/
theorem c7_counterexample :
    index_directory [⟨"a", [], [], 3⟩] [⟨"a", 3, some "hello"⟩] (fun _ => some []) 1 =
      some ⟨0, [⟨"a", [], [], 3⟩], false, false, 1⟩ := by decide

/-- Witness for C7's amended statement on a one-new-file run. -/
theorem c7_witness :
    index_directory [] [⟨"a", 1, some "hi"⟩] (fun _ => some []) 5 =
        some ⟨1, [⟨"a", [104, 105], [], 1⟩], false, true, 1⟩ ∧
      ((⟨1, [⟨"a", [104, 105], [], 1⟩], false, true, 1⟩ : RunResult).ftsBuilt = true ↔
        0 < (⟨1, [⟨"a", [104, 105], [], 1⟩], false, true, 1⟩ : RunResult).filesIndexed) :=
  ⟨by decide, c7_fts_amended [] [⟨"a", 1, some "hi"⟩] (fun _ => some []) 5 _ (by decide)⟩

/-- C6 amended: the ANN index build is invoked iff the run staged at least
one chunk and `files_seen ≥ 256`, where `files_seen` counts files skipped as
unchanged as well as files newly processed (but not files passed over for
lack of extractable content). -/
theorem c6_ann_amended (existingRows : List Row) (files : List FileEntry)
    (embed : List Nat → Option (List ℚ)) (fuel : Nat) (res : RunResult)
    (h : index_directory existingRows files embed fuel = some res) :
    res.annBuilt = true ↔ 0 < res.filesIndexed ∧ ANN_INDEX_THRESHOLD ≤ res.filesSeen := by
  unfold index_directory at h
  split at h
  · exact absurd h (by simp)
  · rename_i acc hw
    split at h
    · cases Option.some.inj h
      simp
    · rename_i hp
      split at h
      · exact absurd h (by simp)
      · rename_i newRows hm
        cases Option.some.inj h
        have : acc.pending.map (·.path) ≠ [] := by simpa using hp
        have hd : (acc.pending.map (·.path)).dedup ≠ [] := by
          rw [ne_eq, List.dedup_eq_nil]
          exact this
        simp [decide_eq_true_eq, List.length_pos.2 hd]

/-- Witness for C6's amended statement on a one-new-file run (one chunk
staged but `files_seen = 1 < 256`, so no ANN build). -/
theorem c6_witness :
    index_directory [] [⟨"b", 1, some "hi"⟩] (fun _ => some []) 5 =
        some ⟨1, [⟨"b", [104, 105], [], 1⟩], false, true, 1⟩ ∧
      ((⟨1, [⟨"b", [104, 105], [], 1⟩], false, true, 1⟩ : RunResult).annBuilt = true ↔
        0 < (⟨1, [⟨"b", [104, 105], [], 1⟩], false, true, 1⟩ : RunResult).filesIndexed ∧
          ANN_INDEX_THRESHOLD ≤
            (⟨1, [⟨"b", [104, 105], [], 1⟩], false, true, 1⟩ : RunResult).filesSeen) :=
  ⟨by decide, c6_ann_amended [] [⟨"b", 1, some "hi"⟩] (fun _ => some []) 5 _ (by decide)⟩

/-! ## Walk-fold lemmas and the C6 counterexample -/

/-- Unchanged files are all skipped: the walk only increments `files_seen`. -/
theorem walkFold_allskip (existing : List (String × Int)) (fuel : Nat) (files : List FileEntry)
    (h : ∀ f ∈ files, lookupMtime existing f.path = some f.mtime) :
    ∀ acc, walkFold existing fuel acc files =
      some ⟨acc.rows, acc.pending, acc.filesSeen + files.length⟩ := by
  induction files with
  | nil => intro acc; simp [walkFold]
  | cons f fs ih =>
    intro acc
    have hskip : stepFile existing fuel acc f = some ⟨acc.rows, acc.pending, acc.filesSeen + 1⟩ := by
      unfold stepFile
      rw [if_pos (h f (by simp))]
    rw [walkFold, hskip]
    show walkFold existing fuel ⟨acc.rows, acc.pending, acc.filesSeen + 1⟩ fs =
      some ⟨acc.rows, acc.pending, acc.filesSeen + (f :: fs).length⟩
    rw [ih (fun f' hf' => h f' (by simp [hf'])) ⟨acc.rows, acc.pending, acc.filesSeen + 1⟩]
    simp only [List.length_cons, Option.some.injEq, WalkAcc.mk.injEq, true_and]
    omega

/-- The walk over an appended file list is the composition of the walks. -/
theorem walkFold_append (existing : List (String × Int)) (fuel : Nat)
    (l1 l2 : List FileEntry) :
    ∀ acc, walkFold existing fuel acc (l1 ++ l2) =
      (walkFold existing fuel acc l1).bind fun acc' => walkFold existing fuel acc' l2 := by
  induction l1 with
  | nil => intro acc; simp [walkFold]
  | cons f fs ih =>
    intro acc
    rw [List.cons_append, walkFold, walkFold]
    cases stepFile existing fuel acc f with
    | none => simp
    | some acc' => simpa using ih acc'

/-- Keyed lookup in the mtime map built from rows: the last row with the
path wins; absent paths fall back to the fold's initial map. -/
theorem lookupMtime_foldl (rows : List Row) (m : List (String × Int)) (p : String) :
    lookupMtime (rows.foldl (fun m r => upsertMtime m r.path r.mtime) m) p =
      match (rows.filter fun r => r.path == p).getLast? with
      | some r => some r.mtime
      | none => lookupMtime m p := by
  induction rows generalizing m with
  | nil => simp
  | cons r rest ih =>
    rw [List.foldl_cons, ih]
    by_cases hp : r.path = p
    · rw [List.filter_cons_of_pos (by simp [hp])]
      cases hl : (rest.filter fun r => r.path == p).getLast? with
      | some r' => rw [List.getLast?_cons, hl]; rfl
      | none =>
        rw [List.getLast?_cons, hl]
        simp only [Option.getD_none]
        rw [lookupMtime_upsert, if_pos hp.symm]
    · rw [List.filter_cons_of_neg (by simp [hp])]
      cases hl : (rest.filter fun r => r.path == p).getLast? with
      | some r' => rfl
      | none =>
        simp only []
        rw [lookupMtime_upsert, if_neg (fun he => hp he.symm)]

/-- With pairwise distinct paths, filtering rows by one row's path keeps
exactly that row. -/
theorem filter_path_eq_single (rows : List Row) (r : Row)
    (hnd : (rows.map (·.path)).Nodup) (hr : r ∈ rows) :
    (rows.filter fun x => x.path == r.path) = [r] := by
  induction rows with
  | nil => cases hr
  | cons r0 rest ih =>
    rw [List.map_cons, List.nodup_cons] at hnd
    rcases List.mem_cons.1 hr with rfl | hr'
    · rw [List.filter_cons_of_pos (by simp)]
      have hnil : (rest.filter fun x => x.path == r.path) = [] := by
        rw [List.filter_eq_nil_iff]
        intro x hx
        simp only [beq_iff_eq]
        intro hxp
        exact hnd.1 (hxp ▸ List.mem_map_of_mem _ hx)
      rw [hnil]
    · have hne : r0.path ≠ r.path := by
        intro he
        exact hnd.1 (he ▸ List.mem_map_of_mem _ hr')
      rw [List.filter_cons_of_neg (by simp [hne])]
      exact ih hnd.2 hr'

/-- Looking up a present row's path in the mtime map returns its mtime when
paths are pairwise distinct. -/
theorem lookupMtime_rows_of_nodup (rows : List Row) (r : Row)
    (hnd : (rows.map (·.path)).Nodup) (hr : r ∈ rows) :
    lookupMtime (get_indexed_mtimes rows) r.path = some r.mtime := by
  rw [get_indexed_mtimes, lookupMtime_foldl, filter_path_eq_single rows r hnd hr]
  rfl

/-- Casting a byte value to a `Char` and back is the identity. -/
theorem toNat_ofNat_byte (i : Nat) (h : i < 256) : (Char.ofNat i).toNat = i := by
  unfold Char.ofNat
  rw [dif_pos]
  · rfl
  · exact Or.inl (by omega)

/-- The 256 fixture rows have pairwise distinct paths. -/
theorem exSkipRows_paths_nodup : (exSkipRows.map (·.path)).Nodup := by
  rw [exSkipRows, List.map_map]
  refine List.Nodup.map_on ?_ (List.nodup_range 256)
  intro i hi j hj h
  simp only [Function.comp] at h
  have h2 : [Char.ofNat i] = [Char.ofNat j] := congrArg String.data h
  have h3 : Char.ofNat i = Char.ofNat j := by injection h2
  have h4 := congrArg Char.toNat h3
  rw [toNat_ofNat_byte i (List.mem_range.1 hi), toNat_ofNat_byte j (List.mem_range.1 hj)] at h4
  exact h4

/-- Every fixture file hits the skip branch of the walk. -/
theorem exSkipFiles_all_skip :
    ∀ f ∈ exSkipFiles, lookupMtime (get_indexed_mtimes exSkipRows) f.path = some f.mtime := by
  intro f hf
  rw [exSkipFiles] at hf
  obtain ⟨i, hi, rfl⟩ := List.mem_map.1 hf
  exact lookupMtime_rows_of_nodup exSkipRows ⟨String.mk [Char.ofNat i], [], [], 0⟩
    exSkipRows_paths_nodup (by rw [exSkipRows]; exact List.mem_map.2 ⟨i, hi, rfl⟩)

/-- No fixture row carries the new file's path (the fixture paths are one
character long; `"zz"` has two). -/
theorem exSkipRows_no_zz : (exSkipRows.filter fun x => x.path == "zz") = [] := by
  rw [List.filter_eq_nil_iff]
  intro x hx
  rw [exSkipRows] at hx
  obtain ⟨i, hi, rfl⟩ := List.mem_map.1 hx
  simp only [beq_iff_eq]
  intro he
  have hd : [Char.ofNat i] = ['z', 'z'] := congrArg String.data he
  simp at hd

/-! ## C1: the incremental-indexing decision and idempotence -/

/-- A skipped file leaves the loop state untouched apart from `files_seen`. -/
theorem stepFile_skip (existing : List (String × Int)) (fuel : Nat) (acc : WalkAcc)
    (f : FileEntry) (h : classify existing f = .skip) :
    stepFile existing fuel acc f = some ⟨acc.rows, acc.pending, acc.filesSeen + 1⟩ := by
  unfold classify at h
  by_cases hc : lookupMtime existing f.path = some f.mtime
  · unfold stepFile
    rw [if_pos hc]
  · rw [if_neg hc] at h
    exfalso
    cases hcon : f.content with
    | none => rw [hcon] at h; cases h
    | some t =>
      rw [hcon] at h
      by_cases hw : t.data.all Char.isWhitespace = true
      · simp [hw] at h
      · simp [hw] at h

/-- A passed-over file (no usable content) leaves the state untouched. -/
theorem stepFile_pass (existing : List (String × Int)) (fuel : Nat) (acc : WalkAcc)
    (f : FileEntry) (h : classify existing f = .pass) :
    stepFile existing fuel acc f = some acc := by
  unfold classify at h
  by_cases hc : lookupMtime existing f.path = some f.mtime
  · rw [if_pos hc] at h; cases h
  · rw [if_neg hc] at h
    unfold stepFile
    rw [if_neg hc]
    cases hcon : f.content with
    | none => rfl
    | some t =>
      by_cases hw : t.data.all Char.isWhitespace = true
      · simp only [hw, if_true]
      · rw [hcon] at h
        simp [hw] at h

/-- A processed file has non-whitespace content. -/
theorem classify_proc_content (existing : List (String × Int)) (f : FileEntry)
    (h : classify existing f = .proc) :
    ¬lookupMtime existing f.path = some f.mtime ∧
      ∃ t, f.content = some t ∧ t.data.all Char.isWhitespace = false := by
  unfold classify at h
  by_cases hc : lookupMtime existing f.path = some f.mtime
  · rw [if_pos hc] at h; cases h
  · rw [if_neg hc] at h
    refine ⟨hc, ?_⟩
    cases hcon : f.content with
    | none => rw [hcon] at h; cases h
    | some t =>
      by_cases hw : t.data.all Char.isWhitespace = true
      · rw [hcon] at h
        simp [hw] at h
      · exact ⟨t, rfl, by simpa using hw⟩

/-- A processed file's step, phrased through `filePending`. -/
theorem stepFile_proc (existing : List (String × Int)) (fuel : Nat) (acc : WalkAcc)
    (f : FileEntry) (h : classify existing f = .proc) :
    stepFile existing fuel acc f = (filePending existing fuel f).map fun pf =>
      ⟨acc.rows.filter fun r => r.path ≠ f.path, acc.pending ++ pf, acc.filesSeen + 1⟩ := by
  obtain ⟨hc, t, hcon, hw⟩ := classify_proc_content existing f h
  have hpr : isProc existing f = true := by simp [isProc, h]
  unfold stepFile filePending
  rw [if_neg hc, hcon, hpr]
  simp only [if_true, hw, Bool.false_eq_true, if_false]
  cases chunk_with_overlap (utf8Str t) CHUNK_MAX_BYTES CHUNK_OVERLAP_BYTES fuel with
  | none => rfl
  | some chunks => rfl

/-- Generic shape of a run whose walk stages a nonempty pending list and whose
embedding succeeds: the counters, flags and rows of the result, in terms of the
walk output. -/
theorem index_directory_of_walk (existingRows : List Row) (files : List FileEntry)
    (embed : List Nat → Option (List ℚ)) (fuel : Nat) (rows2 : List Row)
    (pend : List PendingChunk) (seen : Nat) (newRows : List Row)
    (hw : walkFold (get_indexed_mtimes existingRows) fuel ⟨existingRows, [], 0⟩ files =
      some ⟨rows2, pend, seen⟩)
    (hne : ¬(pend = []))
    (hm : pend.mapM (fun c => (embed (passageMarker ++ c.content)).map
        fun v => Row.mk c.path c.content v c.mtime) = some newRows) :
    index_directory existingRows files embed fuel =
      some ⟨(pend.map (·.path)).dedup.length, rows2 ++ newRows,
            decide (ANN_INDEX_THRESHOLD ≤ seen), true, seen⟩ := by
  unfold index_directory
  rw [hw]
  simp only []
  rw [if_neg hne, hm]

/-- C6 counterexample: with 256 unchanged (skipped) files and a single new
file, the run reads only one file's content, yet `files_seen = 257 ≥ 256`,
so the ANN index build is invoked. -/
theorem c6_counterexample :
    ∃ res, index_directory exSkipRows (exSkipFiles ++ [exNewFile]) (fun _ => some []) 5 =
        some res ∧ res.annBuilt = true ∧ res.filesIndexed = 1 ∧ res.filesSeen = 257 := by
  have hskip := walkFold_allskip (get_indexed_mtimes exSkipRows) 5 exSkipFiles
    exSkipFiles_all_skip ⟨exSkipRows, [], 0⟩
  have hlen : exSkipFiles.length = 256 := by rw [exSkipFiles]; simp
  rw [hlen] at hskip
  have hskip2 : walkFold (get_indexed_mtimes exSkipRows) 5 ⟨exSkipRows, [], 0⟩ exSkipFiles =
      some ⟨exSkipRows, [], 256⟩ := hskip
  have hlook : lookupMtime (get_indexed_mtimes exSkipRows) "zz" = none := by
    rw [get_indexed_mtimes, lookupMtime_foldl, exSkipRows_no_zz]
    rfl
  have hfil : (exSkipRows.filter fun r => r.path ≠ "zz") = exSkipRows := by
    rw [List.filter_eq_self]
    intro a ha
    have := List.filter_eq_nil_iff.1 exSkipRows_no_zz a ha
    simpa using this
  have hcls : classify (get_indexed_mtimes exSkipRows) exNewFile = .proc := by
    unfold classify
    rw [show exNewFile.path = "zz" from rfl, show exNewFile.mtime = (5 : Int) from rfl,
      show exNewFile.content = some "hi" from rfl, if_neg (by rw [hlook]; simp)]
    decide
  have hpr : isProc (get_indexed_mtimes exSkipRows) exNewFile = true := by
    unfold isProc
    rw [hcls]
    rfl
  have hfp : filePending (get_indexed_mtimes exSkipRows) 5 exNewFile =
      some [⟨"zz", [104, 105], 5⟩] := by
    unfold filePending
    rw [hpr, if_pos rfl, show exNewFile.content = some "hi" from rfl]
    simp only []
    rw [show chunk_with_overlap (utf8Str "hi") CHUNK_MAX_BYTES CHUNK_OVERLAP_BYTES 5 =
      some [[104, 105]] from by decide]
    rfl
  have hstep := stepFile_proc (get_indexed_mtimes exSkipRows) 5 ⟨exSkipRows, [], 256⟩
    exNewFile hcls
  rw [hfp, Option.map_some'] at hstep
  have hstep2 : stepFile (get_indexed_mtimes exSkipRows) 5 ⟨exSkipRows, [], 256⟩ exNewFile =
      some ⟨exSkipRows.filter fun r => r.path ≠ "zz", [⟨"zz", [104, 105], 5⟩], 257⟩ := by
    rw [hstep]
    rfl
  rw [hfil] at hstep2
  have hwalk : walkFold (get_indexed_mtimes exSkipRows) 5 ⟨exSkipRows, [], 0⟩
      (exSkipFiles ++ [exNewFile]) = some ⟨exSkipRows, [⟨"zz", [104, 105], 5⟩], 257⟩ := by
    rw [walkFold_append, hskip2, Option.some_bind]
    rw [walkFold, hstep2]
    simp only []
    rw [walkFold]
  have hm : ([⟨"zz", [104, 105], 5⟩] : List PendingChunk).mapM
      (fun c => (((fun _ => some []) : List Nat → Option (List ℚ)) (passageMarker ++ c.content)).map
        fun v => Row.mk c.path c.content v c.mtime) = some [⟨"zz", [104, 105], [], 5⟩] := rfl
  have hres := index_directory_of_walk exSkipRows (exSkipFiles ++ [exNewFile])
    (fun _ => some []) 5 exSkipRows [⟨"zz", [104, 105], 5⟩] 257
    [⟨"zz", [104, 105], [], 5⟩] hwalk (by simp) hm
  have hres2 : index_directory exSkipRows (exSkipFiles ++ [exNewFile]) (fun _ => some []) 5 =
      some ⟨1, exSkipRows ++ [⟨"zz", [104, 105], [], 5⟩], true, true, 257⟩ := hres
  exact ⟨⟨1, exSkipRows ++ [⟨"zz", [104, 105], [], 5⟩], true, true, 257⟩, hres2, rfl, rfl, rfl⟩


/-- Processed chunks of a processed file are nonempty: the content has a
non-whitespace character, so its UTF-8 byte sequence is nonempty and the
chunk loop pushes at least one chunk before finishing. -/
theorem chunkLoop_ne_nil (bs : List Nat) (maxB ovB : Nat) (fuel s : Nat)
    (L : List (List Nat)) (h : chunkLoop bs maxB ovB fuel s = some L) (hs : s < bs.length) :
    L ≠ [] := by
  cases fuel with
  | zero => cases h
  | succ n =>
    rw [chunkLoop, if_pos hs] at h
    cases hstep : chunkStep bs maxB ovB s with
    | inl c => rw [hstep] at h; cases Option.some.inj h; simp
    | inr p =>
      obtain ⟨c, s'⟩ := p
      rw [hstep] at h
      have h' : (chunkLoop bs maxB ovB n s').map (fun x => c :: x) = some L := h
      cases hrec : chunkLoop bs maxB ovB n s' with
      | none => rw [hrec] at h'; cases h'
      | some L' =>
        rw [hrec] at h'
        cases Option.some.inj h'
        simp

/-- The UTF-8 encoding of one scalar is never empty. -/
theorem utf8Char_ne_nil (c : Nat) : utf8Char c ≠ [] := by
  unfold utf8Char
  by_cases h1 : c < 0x80
  · simp [h1]
  · by_cases h2 : c < 0x800
    · simp [h1, h2]
    · by_cases h3 : c < 0x10000 <;> simp [h1, h2, h3]

/-- A string with a non-whitespace character encodes to a nonempty byte list. -/
theorem utf8Str_ne_nil (t : String) (h : t.data.all Char.isWhitespace = false) :
    utf8Str t ≠ [] := by
  cases hd : t.data with
  | nil => rw [hd] at h; cases h
  | cons c rest =>
    unfold utf8Str
    rw [hd]
    simp only [List.map_cons, List.flatten_cons, ne_eq, List.append_eq_nil]
    intro hcontra
    exact utf8Char_ne_nil c.toNat hcontra.1

/-- A processed file stages at least one chunk, carrying its path and mtime. -/
theorem filePending_proc_ne_nil (existing : List (String × Int)) (fuel : Nat) (f : FileEntry)
    (h : classify existing f = .proc) (pf : List PendingChunk)
    (hpf : filePending existing fuel f = some pf) :
    pf ≠ [] ∧ ∀ c ∈ pf, c.path = f.path ∧ c.mtime = f.mtime := by
  obtain ⟨hc, t, hcon, hw⟩ := classify_proc_content existing f h
  have hpr : isProc existing f = true := by simp [isProc, h]
  unfold filePending at hpf
  rw [hpr, hcon] at hpf
  simp only [if_true] at hpf
  cases hch : chunk_with_overlap (utf8Str t) CHUNK_MAX_BYTES CHUNK_OVERLAP_BYTES fuel with
  | none => rw [hch] at hpf; cases hpf
  | some chunks =>
    rw [hch] at hpf
    cases Option.some.inj hpf
    have hne : chunks ≠ [] := by
      refine chunkLoop_ne_nil (utf8Str t) CHUNK_MAX_BYTES CHUNK_OVERLAP_BYTES fuel 0 chunks hch ?_
      exact List.length_pos.2 (utf8Str_ne_nil t hw)
    constructor
    · simpa using hne
    · intro c hcmem
      obtain ⟨b, _, rfl⟩ := List.mem_map.1 hcmem
      exact ⟨rfl, rfl⟩

/-- Membership in the processed-paths list. -/
theorem mem_procPaths (existing : List (String × Int)) (files : List FileEntry) (p : String) :
    p ∈ procPaths existing files ↔
      ∃ f ∈ files, classify existing f = .proc ∧ f.path = p := by
  unfold procPaths
  constructor
  · intro h
    obtain ⟨f, hf, rfl⟩ := List.mem_map.1 h
    have := List.mem_filter.1 hf
    exact ⟨f, this.1, by simpa [isProc] using this.2, rfl⟩
  · rintro ⟨f, hf, hproc, rfl⟩
    exact List.mem_map_of_mem _ (List.mem_filter.2 ⟨hf, by simp [isProc, hproc]⟩)

/-- Rows after a successful walk: exactly the rows whose path belongs to no
processed file survive. -/
theorem walkFold_rows (existing : List (String × Int)) (fuel : Nat) :
    ∀ (files : List FileEntry) (acc acc' : WalkAcc),
      walkFold existing fuel acc files = some acc' →
      acc'.rows = acc.rows.filter fun r => !((procPaths existing files).contains r.path) := by
  intro files
  induction files with
  | nil =>
    intro acc acc' h
    cases Option.some.inj h
    simp [procPaths]
  | cons f fs ih =>
    intro acc acc' h
    rw [walkFold] at h
    cases hcl : classify existing f with
    | skip =>
      rw [stepFile_skip existing fuel acc f hcl] at h
      have h' : walkFold existing fuel ⟨acc.rows, acc.pending, acc.filesSeen + 1⟩ fs = some acc' := h
      rw [ih _ _ h']
      have hpp : procPaths existing (f :: fs) = procPaths existing fs := by
        unfold procPaths
        rw [List.filter_cons_of_neg (by simp [isProc, hcl])]
      rw [hpp]
    | pass =>
      rw [stepFile_pass existing fuel acc f hcl] at h
      have h' : walkFold existing fuel acc fs = some acc' := h
      rw [ih _ _ h']
      have hpp : procPaths existing (f :: fs) = procPaths existing fs := by
        unfold procPaths
        rw [List.filter_cons_of_neg (by simp [isProc, hcl])]
      rw [hpp]
    | proc =>
      rw [stepFile_proc existing fuel acc f hcl] at h
      cases hpf : filePending existing fuel f with
      | none => rw [hpf] at h; cases h
      | some pf =>
        rw [hpf] at h
        have h' : walkFold existing fuel
            ⟨acc.rows.filter fun r => r.path ≠ f.path, acc.pending ++ pf, acc.filesSeen + 1⟩ fs =
            some acc' := h
        rw [ih _ _ h']
        have hpp : procPaths existing (f :: fs) = f.path :: procPaths existing fs := by
          unfold procPaths
          rw [List.filter_cons_of_pos (by simp [isProc, hcl])]
          rfl
        rw [hpp]
        simp only [List.filter_filter]
        refine List.filter_congr fun x _ => ?_
        by_cases hx : x.path = f.path <;> simp [List.contains_cons, hx]

/-- The pending list only grows during a walk. -/
theorem walkFold_pending_mono (existing : List (String × Int)) (fuel : Nat) :
    ∀ (files : List FileEntry) (acc acc' : WalkAcc),
      walkFold existing fuel acc files = some acc' →
      ∃ tail, acc'.pending = acc.pending ++ tail := by
  intro files
  induction files with
  | nil =>
    intro acc acc' h
    cases Option.some.inj h
    exact ⟨[], by simp⟩
  | cons f fs ih =>
    intro acc acc' h
    rw [walkFold] at h
    cases hcl : classify existing f with
    | skip =>
      rw [stepFile_skip existing fuel acc f hcl] at h
      exact ih ⟨acc.rows, acc.pending, acc.filesSeen + 1⟩ acc' h
    | pass =>
      rw [stepFile_pass existing fuel acc f hcl] at h
      exact ih acc acc' h
    | proc =>
      rw [stepFile_proc existing fuel acc f hcl] at h
      cases hpf : filePending existing fuel f with
      | none => rw [hpf] at h; cases h
      | some pf =>
        rw [hpf] at h
        obtain ⟨tail, htail⟩ := ih
          ⟨acc.rows.filter fun r => r.path ≠ f.path, acc.pending ++ pf, acc.filesSeen + 1⟩ acc' h
        exact ⟨pf ++ tail, by simpa using htail⟩

/-- Every staged chunk either was already pending or carries the path and
mtime of some processed file of the walk. -/
theorem walkFold_pending_coherent (existing : List (String × Int)) (fuel : Nat) :
    ∀ (files : List FileEntry) (acc acc' : WalkAcc),
      walkFold existing fuel acc files = some acc' →
      ∀ c ∈ acc'.pending, c ∈ acc.pending ∨
        ∃ f ∈ files, classify existing f = .proc ∧ c.path = f.path ∧ c.mtime = f.mtime := by
  intro files
  induction files with
  | nil =>
    intro acc acc' h c hc
    cases Option.some.inj h
    exact Or.inl hc
  | cons f fs ih =>
    intro acc acc' h c hc
    rw [walkFold] at h
    cases hcl : classify existing f with
    | skip =>
      rw [stepFile_skip existing fuel acc f hcl] at h
      rcases ih ⟨acc.rows, acc.pending, acc.filesSeen + 1⟩ acc' h c hc with hin | ⟨f', hf', hp, he⟩
      · exact Or.inl hin
      · exact Or.inr ⟨f', by simp [hf'], hp, he⟩
    | pass =>
      rw [stepFile_pass existing fuel acc f hcl] at h
      rcases ih acc acc' h c hc with hin | ⟨f', hf', hp, he⟩
      · exact Or.inl hin
      · exact Or.inr ⟨f', by simp [hf'], hp, he⟩
    | proc =>
      rw [stepFile_proc existing fuel acc f hcl] at h
      cases hpf : filePending existing fuel f with
      | none => rw [hpf] at h; cases h
      | some pf =>
        rw [hpf] at h
        rcases ih ⟨acc.rows.filter fun r => r.path ≠ f.path, acc.pending ++ pf,
            acc.filesSeen + 1⟩ acc' h c hc with hin | ⟨f', hf', hp, he⟩
        · rcases List.mem_append.1 hin with hold | hnew
          · exact Or.inl hold
          · have := (filePending_proc_ne_nil existing fuel f hcl pf hpf).2 c hnew
            exact Or.inr ⟨f, by simp, hcl, this.1, this.2⟩
        · exact Or.inr ⟨f', by simp [hf'], hp, he⟩

/-- Every processed file of a successful walk contributed a staged chunk
with its path and mtime. -/
theorem walkFold_proc_contributes (existing : List (String × Int)) (fuel : Nat) :
    ∀ (files : List FileEntry) (acc acc' : WalkAcc),
      walkFold existing fuel acc files = some acc' →
      ∀ f ∈ files, classify existing f = .proc →
        ∃ c ∈ acc'.pending, c.path = f.path ∧ c.mtime = f.mtime := by
  intro files
  induction files with
  | nil =>
    intro acc acc' h f hf
    cases hf
  | cons f0 fs ih =>
    intro acc acc' h f hf hproc
    rw [walkFold] at h
    rcases List.mem_cons.1 hf with rfl | hf'
    · rw [stepFile_proc existing fuel acc f hproc] at h
      cases hpf : filePending existing fuel f with
      | none => rw [hpf] at h; cases h
      | some pf =>
        rw [hpf] at h
        obtain ⟨hne, hall⟩ := filePending_proc_ne_nil existing fuel f hproc pf hpf
        obtain ⟨c, hcmem⟩ := List.exists_mem_of_ne_nil pf hne
        obtain ⟨tail, htail⟩ := walkFold_pending_mono existing fuel fs
          ⟨acc.rows.filter fun r => r.path ≠ f.path, acc.pending ++ pf, acc.filesSeen + 1⟩ acc' h
        refine ⟨c, ?_, (hall c hcmem).1, (hall c hcmem).2⟩
        rw [htail]
        simp [hcmem]
    · cases hcl : classify existing f0 with
      | skip =>
        rw [stepFile_skip existing fuel acc f0 hcl] at h
        exact ih ⟨acc.rows, acc.pending, acc.filesSeen + 1⟩ acc' h f hf' hproc
      | pass =>
        rw [stepFile_pass existing fuel acc f0 hcl] at h
        exact ih acc acc' h f hf' hproc
      | proc =>
        rw [stepFile_proc existing fuel acc f0 hcl] at h
        cases hpf : filePending existing fuel f0 with
        | none => rw [hpf] at h; cases h
        | some pf =>
          rw [hpf] at h
          exact ih ⟨acc.rows.filter fun r => r.path ≠ f0.path, acc.pending ++ pf,
            acc.filesSeen + 1⟩ acc' h f hf' hproc

/-- A walk in which no file needs (re)processing changes neither the rows
nor the pending list. -/
theorem walkFold_noproc (existing : List (String × Int)) (fuel : Nat) :
    ∀ (files : List FileEntry) (acc : WalkAcc),
      (∀ f ∈ files, classify existing f ≠ .proc) →
      ∃ n, walkFold existing fuel acc files = some ⟨acc.rows, acc.pending, acc.filesSeen + n⟩ := by
  intro files
  induction files with
  | nil =>
    intro acc _
    exact ⟨0, by simp [walkFold]⟩
  | cons f fs ih =>
    intro acc hnp
    rw [walkFold]
    cases hcl : classify existing f with
    | skip =>
      rw [stepFile_skip existing fuel acc f hcl]
      obtain ⟨n, hn⟩ := ih ⟨acc.rows, acc.pending, acc.filesSeen + 1⟩
        (fun f' hf' => hnp f' (by simp [hf']))
      refine ⟨n + 1, ?_⟩
      have h' : walkFold existing fuel ⟨acc.rows, acc.pending, acc.filesSeen + 1⟩ fs =
          some ⟨acc.rows, acc.pending, acc.filesSeen + 1 + n⟩ := hn
      rw [show acc.filesSeen + (n + 1) = acc.filesSeen + 1 + n by omega]
      exact h'
    | pass =>
      rw [stepFile_pass existing fuel acc f hcl]
      exact ih acc fun f' hf' => hnp f' (by simp [hf'])
    | proc => exact absurd hcl (hnp f (by simp))

/-- A successful `mapM` over `Option` relates inputs and outputs pointwise. -/
theorem mapM_option_forall2 {α β : Type} (g : α → Option β) :
    ∀ (l : List α) (out : List β), l.mapM g = some out →
      List.Forall₂ (fun a b => g a = some b) l out := by
  intro l
  induction l with
  | nil =>
    intro out h
    rw [List.mapM_nil] at h
    cases Option.some.inj h
    exact List.Forall₂.nil
  | cons a l ih =>
    intro out h
    rw [List.mapM_cons] at h
    cases hg : g a with
    | none => rw [hg] at h; cases h
    | some b =>
      rw [hg] at h
      cases hm : l.mapM g with
      | none =>
        rw [hm] at h
        cases h
      | some bs =>
        rw [hm] at h
        cases Option.some.inj h
        exact List.Forall₂.cons hg (ih bs hm)

/-- Right-to-left membership transfer along `Forall₂`. -/
theorem forall2_mem_right {α β : Type} {R : α → β → Prop} :
    ∀ {l : List α} {out : List β}, List.Forall₂ R l out → ∀ b ∈ out, ∃ a ∈ l, R a b := by
  intro l out h
  induction h with
  | nil => intro b hb; cases hb
  | @cons a b l' out' hR _ ih =>
    intro b' hb'
    rcases List.mem_cons.1 hb' with rfl | hb2
    · exact ⟨a, by simp, hR⟩
    · obtain ⟨a', ha', hr⟩ := ih b' hb2
      exact ⟨a', by simp [ha'], hr⟩

/-- Left-to-right membership transfer along `Forall₂`. -/
theorem forall2_mem_left {α β : Type} {R : α → β → Prop} :
    ∀ {l : List α} {out : List β}, List.Forall₂ R l out → ∀ a ∈ l, ∃ b ∈ out, R a b := by
  intro l out h
  induction h with
  | nil => intro a ha; cases ha
  | @cons a b l' out' hR _ ih =>
    intro a' ha'
    rcases List.mem_cons.1 ha' with rfl | ha2
    · exact ⟨b, by simp, hR⟩
    · obtain ⟨b', hb', hr⟩ := ih a' ha2
      exact ⟨b', by simp [hb'], hr⟩

/-- An embedded row carries its chunk's path and mtime. -/
theorem rowOf_some_proj (embed : List Nat → Option (List ℚ)) (c : PendingChunk) (r : Row)
    (h : (embed (passageMarker ++ c.content)).map
      (fun v => Row.mk c.path c.content v c.mtime) = some r) :
    r.path = c.path ∧ r.mtime = c.mtime := by
  cases he : embed (passageMarker ++ c.content) with
  | none => rw [he] at h; cases h
  | some v =>
    rw [he] at h
    cases Option.some.inj h
    exact ⟨rfl, rfl⟩

/-- Lookup in the mtime map of appended rows: the appended block wins when it
mentions the path at all. -/
theorem lookupMtime_append_rows (l1 l2 : List Row) (p : String) :
    lookupMtime (get_indexed_mtimes (l1 ++ l2)) p =
      match (l2.filter fun r => r.path == p).getLast? with
      | some r => some r.mtime
      | none => lookupMtime (get_indexed_mtimes l1) p := by
  rw [get_indexed_mtimes, get_indexed_mtimes, lookupMtime_foldl, lookupMtime_foldl,
    List.filter_append, List.getLast?_append]
  cases (l2.filter fun r => r.path == p).getLast? with
  | none => simp
  | some r => simp

/-- Filtering rows by a predicate that keeps every row of a given path does
not change that path's mtime lookup. -/
theorem lookup_filter_keep (rows : List Row) (q : Row → Bool) (p : String)
    (hq : ∀ r ∈ rows, r.path = p → q r = true) :
    lookupMtime (get_indexed_mtimes (rows.filter q)) p =
      lookupMtime (get_indexed_mtimes rows) p := by
  rw [get_indexed_mtimes, get_indexed_mtimes, lookupMtime_foldl, lookupMtime_foldl,
    List.filter_filter]
  have : (rows.filter fun r => (r.path == p) && q r) = rows.filter fun r => r.path == p := by
    refine List.filter_congr fun r hr => ?_
    by_cases hp : r.path = p
    · simp [hp, hq r hr hp]
    · simp [hp]
  rw [this]

/-- With pairwise distinct paths, a path determines the file. -/
theorem file_eq_of_path_eq (files : List FileEntry) (hnd : (files.map (·.path)).Nodup)
    (f g : FileEntry) (hf : f ∈ files) (hg : g ∈ files) (he : f.path = g.path) : f = g := by
  induction files with
  | nil => cases hf
  | cons f0 rest ih =>
    rw [List.map_cons, List.nodup_cons] at hnd
    rcases List.mem_cons.1 hf with rfl | hf'
    · rcases List.mem_cons.1 hg with rfl | hg'
      · rfl
      · exact absurd (he ▸ List.mem_map_of_mem _ hg') hnd.1
    · rcases List.mem_cons.1 hg with rfl | hg'
      · exact absurd (he ▸ List.mem_map_of_mem _ hf') hnd.1
      · exact ih hnd.2 hf' hg'

/-- C1: a file is skipped entirely by the walk (no read, no chunking, no
deletion, rows kept, only `files_seen` advances) iff the collection table
records that exact path with a stored mtime equal to the on-disk one; and
running `index_directory` again over the same unchanged file list returns 0
newly processed files and leaves the table rows unchanged. -/
theorem c1_incremental_skip :
    (∀ (existing : List (String × Int)) (f : FileEntry),
      classify existing f = StepKind.skip ↔ lookupMtime existing f.path = some f.mtime) ∧
    (∀ (existing : List (String × Int)) (fuel : Nat) (acc : WalkAcc) (f : FileEntry),
      classify existing f = StepKind.skip →
      stepFile existing fuel acc f = some ⟨acc.rows, acc.pending, acc.filesSeen + 1⟩) ∧
    ∀ (rows0 : List Row) (files : List FileEntry) (embed : List Nat → Option (List ℚ))
      (fuel : Nat) (res : RunResult), (files.map (·.path)).Nodup →
      index_directory rows0 files embed fuel = some res →
      ∀ (embed2 : List Nat → Option (List ℚ)) (fuel2 : Nat),
        ∃ res2, index_directory res.rows files embed2 fuel2 = some res2 ∧
          res2.filesIndexed = 0 ∧ res2.rows = res.rows := by
  have partA : ∀ (existing : List (String × Int)) (f : FileEntry),
      classify existing f = StepKind.skip ↔ lookupMtime existing f.path = some f.mtime := by
    intro existing f
    constructor
    · intro h
      by_cases hc : lookupMtime existing f.path = some f.mtime
      · exact hc
      · exfalso
        unfold classify at h
        rw [if_neg hc] at h
        cases hcon : f.content with
        | none => rw [hcon] at h; cases h
        | some t =>
          rw [hcon] at h
          by_cases hwsp : t.data.all Char.isWhitespace = true
          · simp [hwsp] at h
          · simp [hwsp] at h
    · intro hc
      unfold classify
      rw [if_pos hc]
  refine ⟨partA, fun existing fuel acc f h => stepFile_skip existing fuel acc f h, ?_⟩
  intro rows0 files embed fuel res hnd hrun embed2 fuel2
  unfold index_directory at hrun
  split at hrun
  · exact absurd hrun (by simp)
  · rename_i acc hw
    split at hrun
    · rename_i hp
      have hres : res = ⟨0, acc.rows, false, false, acc.filesSeen⟩ := (Option.some.inj hrun).symm
      have hrr : res.rows = acc.rows := by rw [hres]
      have hnp : ∀ f ∈ files, classify (get_indexed_mtimes rows0) f ≠ StepKind.proc := by
        intro f hf hproc
        obtain ⟨c, hc, -⟩ :=
          walkFold_proc_contributes (get_indexed_mtimes rows0) fuel files ⟨rows0, [], 0⟩ acc
            hw f hf hproc
        rw [hp] at hc
        exact absurd hc (List.not_mem_nil c)
      have hrows : acc.rows = rows0 := by
        rw [walkFold_rows (get_indexed_mtimes rows0) fuel files ⟨rows0, [], 0⟩ acc hw]
        have hempty : procPaths (get_indexed_mtimes rows0) files = [] := by
          cases hq : procPaths (get_indexed_mtimes rows0) files with
          | nil => rfl
          | cons q qs =>
            obtain ⟨f, hf, hproc, -⟩ :=
              (mem_procPaths (get_indexed_mtimes rows0) files q).1 (by rw [hq]; simp)
            exact absurd hproc (hnp f hf)
        rw [hempty]
        simp
      rw [hrr, hrows]
      obtain ⟨n, hn⟩ := walkFold_noproc (get_indexed_mtimes rows0) fuel2 files ⟨rows0, [], 0⟩ hnp
      unfold index_directory
      rw [hn]
      exact ⟨⟨0, rows0, false, false, 0 + n⟩, rfl, rfl, rfl⟩
    · rename_i hp
      split at hrun
      · exact absurd hrun (by simp)
      · rename_i newRows hm
        have hres : res = ⟨(acc.pending.map (·.path)).dedup.length, acc.rows ++ newRows,
            decide (ANN_INDEX_THRESHOLD ≤ acc.filesSeen), true, acc.filesSeen⟩ :=
          (Option.some.inj hrun).symm
        have hrr : res.rows = acc.rows ++ newRows := by rw [hres]
        have hf2 := mapM_option_forall2
          (fun c => (embed (passageMarker ++ c.content)).map
            fun v => Row.mk c.path c.content v c.mtime) acc.pending newRows hm
        have hnew_proj : ∀ r ∈ newRows, ∃ c ∈ acc.pending,
            r.path = c.path ∧ r.mtime = c.mtime := by
          intro r hr
          obtain ⟨c, hc, hg⟩ := forall2_mem_right hf2 r hr
          exact ⟨c, hc, rowOf_some_proj embed c r hg⟩
        have hpend_co : ∀ c ∈ acc.pending, ∃ f' ∈ files,
            classify (get_indexed_mtimes rows0) f' = StepKind.proc ∧
              c.path = f'.path ∧ c.mtime = f'.mtime := by
          intro c hc
          rcases walkFold_pending_coherent (get_indexed_mtimes rows0) fuel files
            ⟨rows0, [], 0⟩ acc hw c hc with habs | hok
          · exact absurd habs (List.not_mem_nil c)
          · exact hok
        have hlk2 : ∀ f ∈ files, ∀ t, f.content = some t →
            t.data.all Char.isWhitespace = false →
            lookupMtime (get_indexed_mtimes (acc.rows ++ newRows)) f.path = some f.mtime := by
          intro f hf t hcon hwsp
          cases hcl1 : classify (get_indexed_mtimes rows0) f with
          | pass =>
            exfalso
            unfold classify at hcl1
            by_cases hc : lookupMtime (get_indexed_mtimes rows0) f.path = some f.mtime
            · rw [if_pos hc] at hcl1; cases hcl1
            · rw [if_neg hc, hcon] at hcl1
              simp [hwsp] at hcl1
          | skip =>
            have hlk1 := (partA (get_indexed_mtimes rows0) f).1 hcl1
            have hnotproc : f.path ∉ procPaths (get_indexed_mtimes rows0) files := by
              intro hmem
              obtain ⟨f', hf', hproc', hpe⟩ :=
                (mem_procPaths (get_indexed_mtimes rows0) files f.path).1 hmem
              have hff : f' = f := file_eq_of_path_eq files hnd f' f hf' hf hpe
              rw [hff] at hproc'
              exact StepKind.noConfusion (hcl1.symm.trans hproc')
            have hnofp : (newRows.filter fun r => r.path == f.path) = [] := by
              rw [List.filter_eq_nil_iff]
              intro r hr hrp
              simp only [beq_iff_eq] at hrp
              obtain ⟨c, hc, hcp, hcm⟩ := hnew_proj r hr
              obtain ⟨f', hf', hproc', hcp', -⟩ := hpend_co c hc
              have hff : f' = f :=
                file_eq_of_path_eq files hnd f' f hf' hf (by rw [← hcp', ← hcp, hrp])
              rw [hff] at hproc'
              exact StepKind.noConfusion (hcl1.symm.trans hproc')
            rw [lookupMtime_append_rows, hnofp]
            simp only [List.getLast?_nil]
            rw [walkFold_rows (get_indexed_mtimes rows0) fuel files ⟨rows0, [], 0⟩ acc hw]
            rw [lookup_filter_keep]
            · exact hlk1
            · intro r hr hrp
              rw [hrp]
              simpa [List.elem_iff] using hnotproc
          | proc =>
            obtain ⟨c0, hc0, hc0p, hc0m⟩ :=
              walkFold_proc_contributes (get_indexed_mtimes rows0) fuel files
                ⟨rows0, [], 0⟩ acc hw f hf hcl1
            obtain ⟨r0, hr0, hg0⟩ := forall2_mem_left hf2 c0 hc0
            obtain ⟨hr0p, hr0m⟩ := rowOf_some_proj embed c0 r0 hg0
            have hr0mem : r0 ∈ newRows.filter fun r => r.path == f.path := by
              rw [List.mem_filter]
              exact ⟨hr0, by simp [hr0p, hc0p]⟩
            have hne : (newRows.filter fun r => r.path == f.path) ≠ [] :=
              List.ne_nil_of_mem hr0mem
            obtain ⟨rl, hrl⟩ := Option.isSome_iff_exists.1 (List.getLast?_isSome.2 hne)
            have hrlmem : rl ∈ newRows.filter fun r => r.path == f.path :=
              List.mem_of_mem_getLast? hrl
            have hrlp : rl.path = f.path := by
              simpa using (List.mem_filter.1 hrlmem).2
            have hrlnew : rl ∈ newRows := (List.mem_filter.1 hrlmem).1
            obtain ⟨c1, hc1, hc1p, hc1m⟩ := hnew_proj rl hrlnew
            obtain ⟨f', hf', hproc', hcp', hcm'⟩ := hpend_co c1 hc1
            have hff : f' = f :=
              file_eq_of_path_eq files hnd f' f hf' hf (by rw [← hcp', ← hc1p, hrlp])
            have hrlm : rl.mtime = f.mtime := by
              rw [hc1m, hcm', hff]
            rw [lookupMtime_append_rows, hrl]
            simp only [hrlm]
        have hnp2 : ∀ f ∈ files,
            classify (get_indexed_mtimes (acc.rows ++ newRows)) f ≠ StepKind.proc := by
          intro f hf hproc2
          obtain ⟨hc2, t, hcon, hwsp⟩ :=
            classify_proc_content (get_indexed_mtimes (acc.rows ++ newRows)) f hproc2
          exact hc2 (hlk2 f hf t hcon hwsp)
        obtain ⟨n, hn⟩ := walkFold_noproc (get_indexed_mtimes (acc.rows ++ newRows)) fuel2 files
          ⟨acc.rows ++ newRows, [], 0⟩ hnp2
        rw [hrr]
        unfold index_directory
        rw [hn]
        exact ⟨⟨0, acc.rows ++ newRows, false, false, 0 + n⟩, rfl, rfl, rfl⟩

/-! ## C4: `hybrid_merge` is Reciprocal Rank Fusion -/

/-- In an association list with pairwise distinct keys, searching for an
entry's key finds that entry. -/
theorem find?_eq_self_of_nodup {α : Type} (m : List (String × α))
    (hnd : (m.map (·.1)).Nodup) (e : String × α) (he : e ∈ m) :
    m.find? (fun x => x.1 == e.1) = some e := by
  induction m with
  | nil => cases he
  | cons e0 rest ih =>
    rw [List.map_cons, List.nodup_cons] at hnd
    rcases List.mem_cons.1 he with rfl | he'
    · rw [List.find?_cons_of_pos _ (by simp)]
    · have hne : e0.1 ≠ e.1 := by
        intro h
        exact hnd.1 (h ▸ List.mem_map_of_mem _ he')
      rw [List.find?_cons_of_neg _ (by simp [hne])]
      exact ih hnd.2 he'

/-- The vector pass over fresh keys just appends the scored entries. -/
theorem vecFold_eq (vec : List (String × String × ℚ)) :
    ∀ (i : Nat) (m : List (String × String × ℚ)),
      (∀ e ∈ vec, m.find? (fun x => x.1 == e.1) = none) → (vec.map (·.1)).Nodup →
      (vec.enumFrom i).foldl
          (fun m ri => rrfInsert m ri.2.1 ri.2.2.1 (1 / ((60 : ℚ) + ri.1 + 1))) m =
        m ++ (vec.enumFrom i).map fun ri => (ri.2.1, ri.2.2.1, 1 / ((60 : ℚ) + ri.1 + 1)) := by
  induction vec with
  | nil => intro i m _ _; simp
  | cons e rest ih =>
    intro i m hfresh hnd
    rw [List.map_cons, List.nodup_cons] at hnd
    rw [List.enumFrom_cons, List.foldl_cons]
    have hins : rrfInsert m e.1 e.2.1 (1 / ((60 : ℚ) + i + 1)) =
        m ++ [(e.1, e.2.1, 1 / ((60 : ℚ) + i + 1))] := by
      unfold rrfInsert
      rw [if_neg]
      intro hany
      obtain ⟨x, hx, hxe⟩ := List.any_eq_true.1 hany
      exact List.find?_eq_none.1 (hfresh e (by simp)) x hx hxe
    rw [hins, ih (i + 1) _ ?fresh hnd.2]
    · simp
    case fresh =>
      intro e' he'
      rw [List.find?_append, hfresh e' (by simp [he']), Option.none_or, List.find?_eq_none]
      intro x hx
      have hx1 : x = (e.1, e.2.1, 1 / ((60 : ℚ) + i + 1)) := by simpa using hx
      have hne : e.1 ≠ e'.1 := by
        intro hcontra
        exact hnd.1 (hcontra ▸ List.mem_map_of_mem _ he')
      simp [hx1, hne]

/-- Key list of the scored enumeration. -/
theorem keys_enumMap (vec : List (String × String × ℚ)) :
    ∀ i : Nat, (((vec.enumFrom i).map fun ri =>
        ((ri.2.1 : String), ri.2.2.1, 1 / ((60 : ℚ) + ri.1 + 1))).map (·.1)) =
      vec.map (·.1) := by
  induction vec with
  | nil => intro i; rfl
  | cons e rest ih => intro i; simp only [List.enumFrom_cons, List.map_cons, ih (i + 1)]

/-- Score recorded by the vector pass, in terms of `findIdx?`. -/
theorem scoreOf_enumMap (vec : List (String × String × ℚ)) :
    ∀ (i : Nat) (p : String),
      scoreOf ((vec.enumFrom i).map fun ri =>
        ((ri.2.1 : String), ri.2.2.1, 1 / ((60 : ℚ) + ri.1 + 1))) p =
      match List.findIdx? (fun e => e.1 == p) vec i with
      | some r => 1 / ((60 : ℚ) + r + 1)
      | none => 0 := by
  induction vec with
  | nil => intro i p; rfl
  | cons e rest ih =>
    intro i p
    rw [List.enumFrom_cons, List.map_cons, List.findIdx?_cons]
    by_cases hp : e.1 = p
    · rw [if_pos (by simp [hp])]
      unfold scoreOf
      rw [List.find?_cons_of_pos _ (by simp [hp])]
    · rw [if_neg (by simp [hp])]
      unfold scoreOf
      rw [List.find?_cons_of_neg _ (by simp [hp])]
      exact ih (i + 1) p

/-- Score change of one lexical upsert. -/
theorem scoreOf_rrfUpsert (m : List (String × String × ℚ)) (p0 p sn : String) (sc : ℚ) :
    scoreOf (rrfUpsert m p0 sn sc) p = if p = p0 then scoreOf m p + sc else scoreOf m p := by
  unfold rrfUpsert scoreOf
  by_cases hin : m.any fun e => e.1 == p0
  · rw [if_pos hin, find?_map_key _ _ (by intro e; by_cases h : e.1 = p0 <;> simp [h]) p]
    by_cases hp : p = p0
    · subst hp
      obtain ⟨e, he, hep⟩ := List.any_eq_true.1 hin
      obtain ⟨e0, he0⟩ := Option.isSome_iff_exists.1
        ((@List.find?_isSome _ m (fun e => e.1 == p)).2 ⟨e, he, hep⟩)
      have he0p := List.find?_some he0
      simp only [beq_iff_eq] at he0p
      rw [he0, if_pos rfl, Option.map_some']
      simp [he0p]
    · rw [if_neg hp]
      cases he0 : m.find? fun e => e.1 == p with
      | none => rfl
      | some e0 =>
        have he0p := List.find?_some he0
        simp only [beq_iff_eq] at he0p
        simp only [Option.map_some', he0p]
        rw [if_neg (by simpa using hp)]
  · rw [if_neg hin, List.find?_append]
    by_cases hp : p = p0
    · subst hp
      have hnone : (m.find? fun e => e.1 == p) = none := by
        rw [List.find?_eq_none]
        intro x hx hpx
        exact hin (List.any_eq_true.2 ⟨x, hx, hpx⟩)
      rw [hnone, if_pos rfl]
      simp [hnone]
    · cases he0 : m.find? fun e => e.1 == p with
      | none => simp [if_neg hp, Ne.symm hp, hp]
      | some e0 => simp [if_neg hp]

/-- One lexical upsert keeps the key list duplicate-free. -/
theorem keysNodup_rrfUpsert (m : List (String × String × ℚ)) (p0 sn : String) (sc : ℚ)
    (hnd : (m.map (·.1)).Nodup) : ((rrfUpsert m p0 sn sc).map (·.1)).Nodup := by
  unfold rrfUpsert
  by_cases hin : m.any fun e => e.1 == p0
  · rw [if_pos hin]
    have : ((m.map fun e => if e.1 == p0 then (e.1, e.2.1, e.2.2 + sc) else e).map (·.1)) =
        m.map (·.1) := by
      rw [List.map_map]
      refine List.map_congr_left fun e _ => ?_
      by_cases h : e.1 = p0 <;> simp [h]
    rw [this]
    exact hnd
  · rw [if_neg hin, List.map_append]
    rw [List.nodup_append]
    refine ⟨hnd, by simp, ?_⟩
    intro x hx
    simp only [List.map_cons, List.map_nil, List.mem_singleton]
    intro hx0
    subst hx0
    obtain ⟨e, he, rfl⟩ := List.mem_map.1 hx
    exact hin (List.any_eq_true.2 ⟨e, he, by simp⟩)

/-- One lexical upsert adds at most the new key. -/
theorem keys_mem_rrfUpsert (m : List (String × String × ℚ)) (p0 p sn : String) (sc : ℚ) :
    p ∈ (rrfUpsert m p0 sn sc).map (·.1) ↔ p ∈ m.map (·.1) ∨ p = p0 := by
  unfold rrfUpsert
  by_cases hin : m.any fun e => e.1 == p0
  · rw [if_pos hin]
    have hkeys : ((m.map fun e => if e.1 == p0 then (e.1, e.2.1, e.2.2 + sc) else e).map (·.1)) =
        m.map (·.1) := by
      rw [List.map_map]
      refine List.map_congr_left fun e _ => ?_
      by_cases h : e.1 = p0 <;> simp [h]
    rw [hkeys]
    constructor
    · exact Or.inl
    · intro h
      rcases h with h | rfl
      · exact h
      · obtain ⟨e, he, hep⟩ := List.any_eq_true.1 hin
        simp only [beq_iff_eq] at hep
        exact hep ▸ List.mem_map_of_mem _ he
  · rw [if_neg hin, List.map_append]
    simp [or_comm]

/-- One lexical upsert grows the map by at most one entry. -/
theorem length_rrfUpsert (m : List (String × String × ℚ)) (p0 sn : String) (sc : ℚ) :
    (rrfUpsert m p0 sn sc).length ≤ m.length + 1 := by
  unfold rrfUpsert
  by_cases hin : m.any fun e => e.1 == p0
  · rw [if_pos hin, List.length_map]
    omega
  · rw [if_neg hin, List.length_append]
    simp

/-- `findIdx?` misses when no element satisfies the predicate. -/
theorem findIdx?_none_of_not {α : Type} (l : List α) (p : α → Bool)
    (h : ∀ x ∈ l, ¬p x = true) : ∀ i, List.findIdx? p l i = none := by
  induction l with
  | nil => intro i; rfl
  | cons a rest ih =>
    intro i
    rw [List.findIdx?_cons, if_neg (h a (by simp))]
    exact ih (fun x hx => h x (by simp [hx])) (i + 1)

/-- Score accumulated by the lexical pass, in terms of `findIdx?`. -/
theorem ftsFold_score (fts : List (String × String)) :
    ∀ (i : Nat) (m : List (String × String × ℚ)) (p : String), (fts.map (·.1)).Nodup →
      scoreOf ((fts.enumFrom i).foldl
        (fun m ri => rrfUpsert m ri.2.1 ri.2.2 (1 / ((60 : ℚ) + ri.1 + 1))) m) p =
      scoreOf m p +
        match List.findIdx? (fun e => e.1 == p) fts i with
        | some r => 1 / ((60 : ℚ) + r + 1)
        | none => 0 := by
  induction fts with
  | nil => intro i m p _; simp
  | cons e rest ih =>
    intro i m p hnd
    rw [List.map_cons, List.nodup_cons] at hnd
    rw [List.enumFrom_cons, List.foldl_cons, List.findIdx?_cons]
    by_cases hp : e.1 = p
    · rw [if_pos (by simp [hp]), ih (i + 1) _ p hnd.2, scoreOf_rrfUpsert, if_pos hp.symm]
      have hnone : List.findIdx? (fun x => x.1 == p) rest (i + 1) = none := by
        refine findIdx?_none_of_not rest _ ?_ (i + 1)
        intro x hx hxp
        simp only [beq_iff_eq] at hxp
        exact absurd (hxp ▸ List.mem_map_of_mem (fun x => x.1) hx) (hp ▸ hnd.1)
      rw [hnone]
      simp
    · rw [if_neg (by simp [hp]), ih (i + 1) _ p hnd.2, scoreOf_rrfUpsert,
        if_neg fun h => hp h.symm]

/-- The lexical pass keeps the key list duplicate-free. -/
theorem ftsFold_keysNodup (fts : List (String × String)) :
    ∀ (i : Nat) (m : List (String × String × ℚ)), (m.map (·.1)).Nodup →
      (((fts.enumFrom i).foldl
        (fun m ri => rrfUpsert m ri.2.1 ri.2.2 (1 / ((60 : ℚ) + ri.1 + 1))) m).map (·.1)).Nodup := by
  induction fts with
  | nil => intro i m h; simpa using h
  | cons e rest ih =>
    intro i m h
    rw [List.enumFrom_cons, List.foldl_cons]
    exact ih (i + 1) _ (keysNodup_rrfUpsert m e.1 e.2 _ h)

/-- Keys after the lexical pass: the old keys plus the lexical paths. -/
theorem ftsFold_keys_mem (fts : List (String × String)) :
    ∀ (i : Nat) (m : List (String × String × ℚ)) (p : String),
      p ∈ ((fts.enumFrom i).foldl
          (fun m ri => rrfUpsert m ri.2.1 ri.2.2 (1 / ((60 : ℚ) + ri.1 + 1))) m).map (·.1) ↔
        p ∈ m.map (·.1) ∨ p ∈ fts.map (·.1) := by
  induction fts with
  | nil => intro i m p; simp
  | cons e rest ih =>
    intro i m p
    rw [List.enumFrom_cons, List.foldl_cons, ih (i + 1), keys_mem_rrfUpsert]
    simp only [List.map_cons, List.mem_cons]
    tauto

/-- The lexical pass grows the map by at most one entry per result. -/
theorem ftsFold_length (fts : List (String × String)) :
    ∀ (i : Nat) (m : List (String × String × ℚ)),
      ((fts.enumFrom i).foldl
        (fun m ri => rrfUpsert m ri.2.1 ri.2.2 (1 / ((60 : ℚ) + ri.1 + 1))) m).length ≤
        m.length + fts.length := by
  induction fts with
  | nil => intro i m; simp
  | cons e rest ih =>
    intro i m
    rw [List.enumFrom_cons, List.foldl_cons]
    calc ((rest.enumFrom (i + 1)).foldl _ (rrfUpsert m e.1 e.2 (1 / ((60 : ℚ) + i + 1)))).length
        ≤ (rrfUpsert m e.1 e.2 (1 / ((60 : ℚ) + i + 1))).length + rest.length := ih (i + 1) _
      _ ≤ m.length + 1 + rest.length := by
          have := length_rrfUpsert m e.1 e.2 (1 / ((60 : ℚ) + i + 1))
          omega
      _ = m.length + (e :: rest).length := by simp; omega

/-- C4: `hybrid_merge` implements Reciprocal Rank Fusion: with per-list
distinct paths, every fused entry's score is the sum of its two rank
contributions `1/(60+r+1)`, the output is sorted descending by score and
truncated to `limit`, only input paths appear, every input path appears when
`limit` is large enough; and on the spec's example the fused list is exactly
`b, a, c` with `b` first. -/
theorem c4_hybrid_merge_rrf :
    (∀ (vec : List (String × String × ℚ)) (fts : List (String × String)) (limit : Nat),
      (vec.map (·.1)).Nodup → (fts.map (·.1)).Nodup →
      (∀ e ∈ hybrid_merge vec fts limit,
        e.2.2 = vecContrib vec e.1 + ftsContrib fts e.1 ∧
          (e.1 ∈ vec.map (·.1) ∨ e.1 ∈ fts.map (·.1))) ∧
      (hybrid_merge vec fts limit).Pairwise (fun a b => b.2.2 ≤ a.2.2) ∧
      (hybrid_merge vec fts limit).length ≤ limit ∧
      (vec.length + fts.length ≤ limit → ∀ p, p ∈ vec.map (·.1) ∨ p ∈ fts.map (·.1) →
        p ∈ (hybrid_merge vec fts limit).map (·.1))) ∧
    (hybrid_merge exVectorResults exFtsResults 10).map (·.1) = ["b", "a", "c"] := by
  constructor
  · intro vec fts limit hndv hndf
    have hraw : hybrid_merge vec fts limit =
        (((fts.enumFrom 0).foldl
          (fun m ri => rrfUpsert m ri.2.1 ri.2.2 (1 / ((60 : ℚ) + ri.1 + 1)))
          ((vec.enumFrom 0).foldl
            (fun m ri => rrfInsert m ri.2.1 ri.2.2.1 (1 / ((60 : ℚ) + ri.1 + 1)))
            [])).mergeSort fun a b => decide (b.2.2 ≤ a.2.2)).take limit := rfl
    have hm1 := vecFold_eq vec 0 [] (fun e _ => rfl) hndv
    rw [List.nil_append] at hm1
    rw [hm1] at hraw
    have hm2nodup : ((((fts.enumFrom 0).foldl
        (fun m ri => rrfUpsert m ri.2.1 ri.2.2 (1 / ((60 : ℚ) + ri.1 + 1)))
        ((vec.enumFrom 0).map fun ri =>
          (ri.2.1, ri.2.2.1, 1 / ((60 : ℚ) + ri.1 + 1))))).map (·.1)).Nodup := by
      refine ftsFold_keysNodup fts 0 _ ?_
      rw [keys_enumMap]
      exact hndv
    have hscore : ∀ p, scoreOf ((fts.enumFrom 0).foldl
        (fun m ri => rrfUpsert m ri.2.1 ri.2.2 (1 / ((60 : ℚ) + ri.1 + 1)))
        ((vec.enumFrom 0).map fun ri =>
          (ri.2.1, ri.2.2.1, 1 / ((60 : ℚ) + ri.1 + 1)))) p =
        vecContrib vec p + ftsContrib fts p := by
      intro p
      rw [ftsFold_score fts 0 _ p hndf, scoreOf_enumMap vec 0 p]
      rfl
    have hperm := List.mergeSort_perm ((fts.enumFrom 0).foldl
        (fun m ri => rrfUpsert m ri.2.1 ri.2.2 (1 / ((60 : ℚ) + ri.1 + 1)))
        ((vec.enumFrom 0).map fun ri =>
          (ri.2.1, ri.2.2.1, 1 / ((60 : ℚ) + ri.1 + 1))))
      fun a b => decide (b.2.2 ≤ a.2.2)
    refine ⟨?_, ?_, ?_, ?_⟩
    · intro e he
      rw [hraw] at he
      have he2 : e ∈ (fts.enumFrom 0).foldl
          (fun m ri => rrfUpsert m ri.2.1 ri.2.2 (1 / ((60 : ℚ) + ri.1 + 1)))
          ((vec.enumFrom 0).map fun ri =>
            (ri.2.1, ri.2.2.1, 1 / ((60 : ℚ) + ri.1 + 1))) :=
        hperm.mem_iff.1 ((List.take_sublist _ _).mem he)
      constructor
      · have hfind := find?_eq_self_of_nodup _ hm2nodup e he2
        have := hscore e.1
        unfold scoreOf at this
        rw [hfind] at this
        simpa using this
      · have : e.1 ∈ ((fts.enumFrom 0).foldl
            (fun m ri => rrfUpsert m ri.2.1 ri.2.2 (1 / ((60 : ℚ) + ri.1 + 1)))
            ((vec.enumFrom 0).map fun ri =>
              (ri.2.1, ri.2.2.1, 1 / ((60 : ℚ) + ri.1 + 1)))).map (·.1) :=
          List.mem_map_of_mem _ he2
        rw [ftsFold_keys_mem, keys_enumMap] at this
        exact this
    · rw [hraw]
      refine List.Pairwise.sublist (List.take_sublist _ _) ?_
      have hsorted := @List.sorted_mergeSort _
        (fun (a b : String × String × ℚ) => decide (b.2.2 ≤ a.2.2))
        (fun a b c hab hbc => by
          simp only [decide_eq_true_eq] at hab hbc ⊢
          exact le_trans hbc hab)
        (fun a b => by
          simp only [Bool.or_eq_true, decide_eq_true_eq]
          exact le_total b.2.2 a.2.2)
        ((fts.enumFrom 0).foldl
          (fun m ri => rrfUpsert m ri.2.1 ri.2.2 (1 / ((60 : ℚ) + ri.1 + 1)))
          ((vec.enumFrom 0).map fun ri =>
            (ri.2.1, ri.2.2.1, 1 / ((60 : ℚ) + ri.1 + 1))))
      exact hsorted.imp fun h => by simpa using h
    · rw [hraw]
      simp [List.length_take]
    · intro hlim p hp
      have hlen2 : ((fts.enumFrom 0).foldl
          (fun m ri => rrfUpsert m ri.2.1 ri.2.2 (1 / ((60 : ℚ) + ri.1 + 1)))
          ((vec.enumFrom 0).map fun ri =>
            (ri.2.1, ri.2.2.1, 1 / ((60 : ℚ) + ri.1 + 1)))).length ≤
          vec.length + fts.length := by
        have := ftsFold_length fts 0 ((vec.enumFrom 0).map fun ri =>
          (ri.2.1, ri.2.2.1, 1 / ((60 : ℚ) + ri.1 + 1)))
        simpa [List.enumFrom_length] using this
      have hkey : p ∈ ((fts.enumFrom 0).foldl
          (fun m ri => rrfUpsert m ri.2.1 ri.2.2 (1 / ((60 : ℚ) + ri.1 + 1)))
          ((vec.enumFrom 0).map fun ri =>
            (ri.2.1, ri.2.2.1, 1 / ((60 : ℚ) + ri.1 + 1)))).map (·.1) := by
        rw [ftsFold_keys_mem, keys_enumMap]
        exact hp
      obtain ⟨e, he, rfl⟩ := List.mem_map.1 hkey
      have hes : e ∈ ((fts.enumFrom 0).foldl
          (fun m ri => rrfUpsert m ri.2.1 ri.2.2 (1 / ((60 : ℚ) + ri.1 + 1)))
          ((vec.enumFrom 0).map fun ri =>
            (ri.2.1, ri.2.2.1, 1 / ((60 : ℚ) + ri.1 + 1)))).mergeSort
          (fun a b => decide (b.2.2 ≤ a.2.2)) := hperm.mem_iff.2 he
      rw [hraw, List.take_of_length_le (by rw [hperm.length_eq]; omega)]
      exact List.mem_map_of_mem _ hes
  · show (List.map (fun e => e.1) (List.take 10 ((exFtsResults.enum.foldl
        (fun m ri => rrfUpsert m ri.2.1 ri.2.2 (1 / ((60 : ℚ) + ri.1 + 1)))
        (exVectorResults.enum.foldl
          (fun m ri => rrfInsert m ri.2.1 ri.2.2.1 (1 / ((60 : ℚ) + ri.1 + 1))) [])).mergeSort
        fun a b => decide (b.2.2 ≤ a.2.2)))) = ["b", "a", "c"]
    rw [show exFtsResults.enum.foldl
        (fun m ri => rrfUpsert m ri.2.1 ri.2.2 (1 / ((60 : ℚ) + ri.1 + 1)))
        (exVectorResults.enum.foldl
          (fun m ri => rrfInsert m ri.2.1 ri.2.2.1 (1 / ((60 : ℚ) + ri.1 + 1))) []) =
        [("a", "sa", 1 / (60 + ((0 : Nat) : ℚ) + 1)),
         ("b", "sb", 1 / (60 + ((1 : Nat) : ℚ) + 1) + 1 / (60 + ((0 : Nat) : ℚ) + 1)),
         ("c", "sc", 1 / (60 + ((1 : Nat) : ℚ) + 1))] from rfl]
    norm_num [List.mergeSort, List.merge]

/-- Witness for C4 on the spec's example lists. -/
theorem c4_witness :
    (hybrid_merge exVectorResults exFtsResults 10).Pairwise (fun a b => b.2.2 ≤ a.2.2) ∧
      (hybrid_merge exVectorResults exFtsResults 10).length ≤ 10 :=
  ⟨(c4_hybrid_merge_rrf.1 exVectorResults exFtsResults 10 (by decide) (by decide)).2.1,
   (c4_hybrid_merge_rrf.1 exVectorResults exFtsResults 10 (by decide) (by decide)).2.2.1⟩

/-- Witness for C1: a one-file run, then a second run over the unchanged
file, which processes nothing and keeps the rows. -/
theorem c1_witness :
    ∃ res2, index_directory [⟨"a", [104, 105], [], 1⟩] [⟨"a", 1, some "hi"⟩]
        (fun _ => some []) 5 = some res2 ∧
      res2.filesIndexed = 0 ∧ res2.rows = [⟨"a", [104, 105], [], 1⟩] :=
  c1_incremental_skip.2.2 [] [⟨"a", 1, some "hi"⟩] (fun _ => some []) 5
    ⟨1, [⟨"a", [104, 105], [], 1⟩], false, true, 1⟩ (by decide) (by decide)
    (fun _ => some []) 5

/-! ## C3: chunk coverage and overlap reconstruction

The development follows the loop: `snapEnd` yields the largest boundary at or
below the raw window end, `splitPos` picks the cut, `snapFwd` re-aligns the
rewound cursor.  `Cover` (defined above) is the geometric invariant of a
successful run; `splitPos_mono` is the heart: a later window never cuts
before an earlier one. -/

/-- Position 0 is always a boundary. -/
theorem bd_zero (bs : List Nat) : isCharBoundary bs 0 = true := by
  unfold isCharBoundary
  simp

/-- The length position is always a boundary. -/
theorem bd_length (bs : List Nat) : isCharBoundary bs bs.length = true := by
  unfold isCharBoundary
  cases h : bs[bs.length]? with
  | some b => exact absurd (List.getElem?_eq_some_iff.1 h).fst (by omega)
  | none => simp

/-- `snapEnd` never grows its argument. -/
theorem snapEnd_le (bs : List Nat) : ∀ e, snapEnd bs e ≤ e := by
  intro e
  induction e with
  | zero => exact le_rfl
  | succ n ih =>
    rw [snapEnd]
    split
    · omega
    · exact le_rfl

/-- `snapEnd` lands on a boundary whenever it starts at or below the length. -/
theorem snapEnd_bd (bs : List Nat) : ∀ e, e ≤ bs.length → isCharBoundary bs (snapEnd bs e) = true := by
  intro e
  induction e with
  | zero => intro _; exact bd_zero bs
  | succ n ih =>
    intro he
    rw [snapEnd]
    by_cases hc : n + 1 < bs.length ∧ ¬isCharBoundary bs (n + 1) = true
    · rw [if_pos (by simpa using hc)]
      exact ih (by omega)
    · rw [if_neg (by simpa using hc)]
      rcases Decidable.not_and_iff_or_not.1 hc with h1 | h2
      · have : n + 1 = bs.length := by omega
        rw [this]
        exact bd_length bs
      · simpa using h2

/-- `snapEnd` is the largest boundary at or below its argument. -/
theorem snapEnd_max (bs : List Nat) : ∀ e j, j ≤ e → isCharBoundary bs j = true →
    j ≤ snapEnd bs e := by
  intro e
  induction e with
  | zero => intro j hj _; omega
  | succ n ih =>
    intro j hj hbd
    rw [snapEnd]
    split
    · rename_i hc
      rcases Nat.lt_or_ge j (n + 1) with h | h
      · exact ih j (by omega) hbd
      · have : j = n + 1 := by omega
        rw [this] at hbd
        simp only [Bool.and_eq_true, Bool.not_eq_eq_eq_not, Bool.not_true] at hc
        rw [hbd] at hc
        cases hc.2
    · omega

/-- A list accepted with no pending continuation owed never starts with a
continuation byte. -/
theorem validAux_head_not_cont (c : Nat) (r : List Nat)
    (h : validAux 0 (c :: r) = true) : contByte c = false := by
  rw [validAux] at h
  by_cases h1 : c < 0x80
  · unfold contByte
    simp only [Bool.and_eq_false_iff, decide_eq_false_iff_not]
    left
    omega
  · rw [if_neg h1] at h
    by_cases h2 : 0xC0 ≤ c && c < 0xE0
    · unfold contByte
      simp only [Bool.and_eq_true, decide_eq_true_eq] at h2
      simp only [Bool.and_eq_false_iff, decide_eq_false_iff_not]
      right
      omega
    · rw [if_neg h2] at h
      by_cases h3 : 0xE0 ≤ c && c < 0xF0
      · unfold contByte
        simp only [Bool.and_eq_true, decide_eq_true_eq] at h3
        simp only [Bool.and_eq_false_iff, decide_eq_false_iff_not]
        right
        omega
      · rw [if_neg h3] at h
        by_cases h4 : 0xF0 ≤ c && c < 0xF8
        · unfold contByte
          simp only [Bool.and_eq_true, decide_eq_true_eq] at h4
          simp only [Bool.and_eq_false_iff, decide_eq_false_iff_not]
          right
          omega
        · rw [if_neg h4] at h
          cases h

/-- Acceptance propagates to the tail for some owed count. -/
theorem validAux_tail (k : Nat) (b : Nat) (rest : List Nat)
    (h : validAux k (b :: rest) = true) : ∃ k2, validAux k2 rest = true := by
  cases k with
  | zero =>
    rw [validAux] at h
    by_cases h1 : b < 0x80
    · exact ⟨0, by rwa [if_pos h1] at h⟩
    · rw [if_neg h1] at h
      by_cases h2 : 0xC0 ≤ b && b < 0xE0
      · exact ⟨1, by rwa [if_pos h2] at h⟩
      · rw [if_neg h2] at h
        by_cases h3 : 0xE0 ≤ b && b < 0xF0
        · exact ⟨2, by rwa [if_pos h3] at h⟩
        · rw [if_neg h3] at h
          by_cases h4 : 0xF0 ≤ b && b < 0xF8
          · exact ⟨3, by rwa [if_pos h4] at h⟩
          · rw [if_neg h4] at h
            cases h
  | succ k' =>
    rw [validAux] at h
    simp only [Bool.and_eq_true] at h
    exact ⟨k', h.2⟩

/-- Shifting the boundary test under a cons. -/
theorem bd_cons_shift (x : Nat) (l : List Nat) (j : Nat) (hj : 0 < j) :
    isCharBoundary (x :: l) (j + 1) = isCharBoundary l j := by
  unfold isCharBoundary
  have h1 : (j + 1 == 0) = false := by simp
  have h2 : (j == 0) = false := by simp; omega
  rw [h1, h2]
  simp only [Bool.false_or]
  have h3 : (x :: l)[j + 1]? = l[j]? := by
    rw [List.getElem?_cons_succ]
  rw [h3]
  cases l[j]? with
  | some b => rfl
  | none =>
    simp only [List.length_cons]
    have : (j + 1 == l.length + 1) = (j == l.length) := by
      by_cases h : j = l.length <;> simp [h]
    rw [this]

/-- After an ASCII byte, the next position is a boundary (in a structurally
valid byte sequence). -/
theorem valid_after_ascii (bs : List Nat) (hv : ∃ k, validAux k bs = true) :
    ∀ p b, bs[p]? = some b → b < 0x80 → isCharBoundary bs (p + 1) = true := by
  induction bs with
  | nil =>
    intro p b hp _
    rw [List.getElem?_nil] at hp
    cases hp
  | cons x rest ih =>
    intro p b hp hascii
    obtain ⟨k, hk⟩ := hv
    cases p with
    | zero =>
      rw [List.getElem?_cons_zero] at hp
      cases Option.some.inj hp
      cases rest with
      | nil =>
        unfold isCharBoundary
        simp
      | cons c r2 =>
        have hk0 : k = 0 := by
          cases k with
          | zero => rfl
          | succ k' =>
            rw [validAux] at hk
            simp only [Bool.and_eq_true] at hk
            have := hk.1
            unfold contByte at this
            simp only [Bool.and_eq_true, decide_eq_true_eq] at this
            omega
        rw [hk0] at hk
        have hrest : validAux 0 (c :: r2) = true := by
          rw [validAux, if_pos hascii] at hk
          exact hk
        have hnc := validAux_head_not_cont c r2 hrest
        unfold isCharBoundary
        simp only [List.getElem?_cons_succ, List.getElem?_cons_zero, hnc]
        simp
    | succ j =>
      rw [List.getElem?_cons_succ] at hp
      rw [bd_cons_shift x rest (j + 1) (by omega)]
      exact ih (validAux_tail k x rest hk) j b hp hascii

/-- `snapEnd` never descends past a boundary at or below its argument. -/
theorem snapEnd_ge (bs : List Nat) (s : Nat) (hbd : isCharBoundary bs s = true) :
    ∀ e, s ≤ e → s ≤ snapEnd bs e := by
  intro e
  induction e with
  | zero =>
    intro h
    have hs0 : s = 0 := by omega
    subst hs0
    exact Nat.zero_le _
  | succ n ih =>
    intro hse
    rw [snapEnd]
    split
    · rename_i hc
      rcases Nat.lt_or_ge s (n + 1) with h | h
      · exact ih (by omega)
      · have hs : s = n + 1 := by omega
        rw [hs] at hbd
        simp only [Bool.and_eq_true, Bool.not_eq_eq_eq_not, Bool.not_true] at hc
        rw [hbd] at hc
        cases hc.2
    · exact hse

/-- `snapEnd` is monotone. -/
theorem snapEnd_mono (bs : List Nat) : ∀ a b, a ≤ b → snapEnd bs a ≤ snapEnd bs b := by
  intro a b
  induction b with
  | zero =>
    intro h
    have ha : a = 0 := by omega
    rw [ha]
  | succ n ih =>
    intro hab
    rcases Nat.lt_or_ge a (n + 1) with h | h
    · rw [snapEnd]
      split
      · exact ih (by omega)
      · calc snapEnd bs a ≤ a := snapEnd_le bs a
          _ ≤ n + 1 := by omega
    · have : a = n + 1 := by omega
      rw [this]

/-- `rfindByte` returns `none` exactly when the byte does not occur. -/
theorem rfindByte_none (l : List Nat) (t : Nat) :
    rfindByte l t = none ↔ t ∉ l := by
  induction l with
  | nil => simp [rfindByte]
  | cons b rest ih =>
    rw [rfindByte]
    cases h : rfindByte rest t with
    | some i =>
      simp only [List.mem_cons, not_or]
      constructor
      · intro hc; cases hc
      · rintro ⟨-, hr⟩
        exact absurd (ih.2 hr) (by simp [h])
    | none =>
      simp only [List.mem_cons, not_or]
      have hrest := ih.1 h
      by_cases hbt : b = t
      · simp [hbt]
      · simp [hbt, Ne.symm hbt, hrest]

/-- A successful `rfindByte` points at an occurrence. -/
theorem rfindByte_some (l : List Nat) (t : Nat) :
    ∀ i, rfindByte l t = some i → l[i]? = some t := by
  induction l with
  | nil => intro i h; cases h
  | cons b rest ih =>
    intro i h
    rw [rfindByte] at h
    cases hr : rfindByte rest t with
    | some j =>
      rw [hr] at h
      cases Option.some.inj h
      rw [List.getElem?_cons_succ]
      exact ih j hr
    | none =>
      rw [hr] at h
      by_cases hbt : (b == t) = true
      · rw [if_pos hbt] at h
        cases Option.some.inj h
        rw [List.getElem?_cons_zero]
        simpa using hbt
      · rw [if_neg hbt] at h; cases h

/-- `rfindByte` finds the last occurrence. -/
theorem rfindByte_last (l : List Nat) (t : Nat) :
    ∀ i, rfindByte l t = some i → ∀ j, l[j]? = some t → j ≤ i := by
  induction l with
  | nil => intro i h; cases h
  | cons b rest ih =>
    intro i h j hj
    rw [rfindByte] at h
    cases hr : rfindByte rest t with
    | some k =>
      rw [hr] at h
      cases Option.some.inj h
      cases j with
      | zero => omega
      | succ j2 =>
        rw [List.getElem?_cons_succ] at hj
        have := ih k hr j2 hj
        omega
    | none =>
      rw [hr] at h
      by_cases hbt : (b == t) = true
      · rw [if_pos hbt] at h
        cases Option.some.inj h
        cases j with
        | zero => omega
        | succ j2 =>
          rw [List.getElem?_cons_succ] at hj
          exact absurd (List.getElem?_mem hj) ((rfindByte_none rest t).1 hr)
      · rw [if_neg hbt] at h; cases h

/-- Any occurrence forces `rfindByte` to succeed. -/
theorem rfindByte_isSome (l : List Nat) (t j : Nat) (hj : l[j]? = some t) :
    ∃ i, rfindByte l t = some i := by
  cases h : rfindByte l t with
  | some i => exact ⟨i, rfl⟩
  | none => exact (((rfindByte_none l t).1 h) (List.getElem?_mem hj)).elim

/-- A successful `rfindPair` points at an adjacent occurrence of the pair. -/
theorem rfindPair_some (l : List Nat) (t1 t2 : Nat) :
    ∀ i, rfindPair l t1 t2 = some i → l[i]? = some t1 ∧ l[i + 1]? = some t2 := by
  induction l with
  | nil =>
    intro i h
    rw [show rfindPair [] t1 t2 = none from rfl] at h
    cases h
  | cons b l2 ih =>
    intro i h
    cases l2 with
    | nil =>
      rw [show rfindPair [b] t1 t2 = none from rfl] at h
      cases h
    | cons c rest =>
      rw [rfindPair] at h
      cases hr : rfindPair (c :: rest) t1 t2 with
      | some k =>
        rw [hr] at h
        cases Option.some.inj h
        have hrec := ih k hr
        exact ⟨by simpa using hrec.1, by simpa using hrec.2⟩
      | none =>
        rw [hr] at h
        by_cases hb : (b == t1 && c == t2) = true
        · rw [if_pos hb] at h
          cases Option.some.inj h
          simp only [Bool.and_eq_true, beq_iff_eq] at hb
          simp [hb.1, hb.2]
        · rw [if_neg hb] at h; cases h

/-- Any adjacent occurrence of the pair forces `rfindPair` to succeed. -/
theorem rfindPair_found (l : List Nat) (t1 t2 : Nat) :
    ∀ j, l[j]? = some t1 → l[j + 1]? = some t2 →
      ∃ i, rfindPair l t1 t2 = some i := by
  induction l with
  | nil =>
    intro j h1 _
    rw [List.getElem?_nil] at h1
    cases h1
  | cons b l2 ih =>
    intro j h1 h2
    cases l2 with
    | nil =>
      cases j with
      | zero => rw [List.getElem?_cons_succ, List.getElem?_nil] at h2; cases h2
      | succ k => rw [List.getElem?_cons_succ, List.getElem?_nil] at h1; cases h1
    | cons c rest =>
      rw [rfindPair]
      cases hr : rfindPair (c :: rest) t1 t2 with
      | some i => exact ⟨i + 1, rfl⟩
      | none =>
        cases j with
        | zero =>
          rw [List.getElem?_cons_zero] at h1
          rw [List.getElem?_cons_succ, List.getElem?_cons_zero] at h2
          have hb : (b == t1 && c == t2) = true := by
            simp [Option.some.inj h1, Option.some.inj h2]
          rw [if_pos hb]
          exact ⟨0, rfl⟩
        | succ k =>
          rw [List.getElem?_cons_succ] at h1 h2
          obtain ⟨i, hi⟩ := ih k h1 h2
          rw [hi] at hr
          cases hr

/-- `rfindPair` finds the last adjacent occurrence. -/
theorem rfindPair_last (l : List Nat) (t1 t2 : Nat) :
    ∀ i, rfindPair l t1 t2 = some i →
      ∀ j, l[j]? = some t1 → l[j + 1]? = some t2 → j ≤ i := by
  induction l with
  | nil => intro i h; rw [show rfindPair [] t1 t2 = none from rfl] at h; cases h
  | cons b l2 ih =>
    intro i h j h1 h2
    cases l2 with
    | nil =>
      rw [show rfindPair [b] t1 t2 = none from rfl] at h
      cases h
    | cons c rest =>
      rw [rfindPair] at h
      cases hr : rfindPair (c :: rest) t1 t2 with
      | some k =>
        rw [hr] at h
        cases Option.some.inj h
        cases j with
        | zero => omega
        | succ j2 =>
          rw [List.getElem?_cons_succ] at h1 h2
          have := ih k hr j2 h1 h2
          omega
      | none =>
        rw [hr] at h
        by_cases hb : (b == t1 && c == t2) = true
        · rw [if_pos hb] at h
          cases Option.some.inj h
          cases j with
          | zero => omega
          | succ j2 =>
            rw [List.getElem?_cons_succ] at h1 h2
            obtain ⟨i2, hi2⟩ := rfindPair_found (c :: rest) t1 t2 j2 h1 h2
            rw [hi2] at hr
            cases hr
        · rw [if_neg hb] at h; cases h

/-- Length of a byte slice. -/
theorem sliceBytes_length (bs : List Nat) (a b : Nat) :
    (sliceBytes bs a b).length = min (b - a) (bs.length - a) := by
  unfold sliceBytes
  rw [List.length_take, List.length_drop]

/-- Indexing into a byte slice, in range. -/
theorem sliceBytes_get (bs : List Nat) (a b i : Nat) (hi : i < b - a) :
    (sliceBytes bs a b)[i]? = bs[a + i]? := by
  unfold sliceBytes
  rw [List.getElem?_take_of_lt hi, List.getElem?_drop]

/-- Unfolded cascade form of `splitPos`. -/
theorem splitPos_eq (bs : List Nat) (s e : Nat) :
    splitPos bs s e =
      match rfindByte (sliceBytes bs s e) 10 with
      | some i => s + i + 1
      | none =>
        match rfindPair (sliceBytes bs s e) 46 32 with
        | some i => s + i + 1
        | none =>
          match rfindByte (sliceBytes bs s e) 32 with
          | some i => s + i + 1
          | none => e := rfl

/-- A byte hit inside a window, in absolute coordinates. -/
theorem rfindByte_window_some (bs : List Nat) (a b t i : Nat)
    (h : rfindByte (sliceBytes bs a b) t = some i) :
    bs[a + i]? = some t ∧ a + i < b := by
  have hget := rfindByte_some _ t i h
  have hlen : i < (sliceBytes bs a b).length := (List.getElem?_eq_some_iff.1 hget).fst
  rw [sliceBytes_length] at hlen
  have hib : i < b - a := lt_of_lt_of_le hlen (min_le_left _ _)
  refine ⟨?_, by omega⟩
  rw [← sliceBytes_get bs a b i hib]
  exact hget

/-- The byte hit is the last occurrence in the window, in absolute coordinates. -/
theorem rfindByte_window_last (bs : List Nat) (a b t i : Nat)
    (h : rfindByte (sliceBytes bs a b) t = some i) :
    ∀ p, a ≤ p → p < b → bs[p]? = some t → p ≤ a + i := by
  intro p hap hpb hpt
  have hidx : p - a < b - a := by omega
  have hsl : (sliceBytes bs a b)[p - a]? = some t := by
    rw [sliceBytes_get bs a b (p - a) hidx, show a + (p - a) = p by omega]
    exact hpt
  have := rfindByte_last _ t i h (p - a) hsl
  omega

/-- An absolute occurrence inside the window forces a byte hit. -/
theorem rfindByte_window_found (bs : List Nat) (a b t p : Nat)
    (hap : a ≤ p) (hpb : p < b) (hpt : bs[p]? = some t) :
    ∃ i, rfindByte (sliceBytes bs a b) t = some i := by
  have hidx : p - a < b - a := by omega
  have hsl : (sliceBytes bs a b)[p - a]? = some t := by
    rw [sliceBytes_get bs a b (p - a) hidx, show a + (p - a) = p by omega]
    exact hpt
  exact rfindByte_isSome _ t (p - a) hsl

/-- A pair hit inside a window, in absolute coordinates. -/
theorem rfindPair_window_some (bs : List Nat) (a b t1 t2 i : Nat)
    (h : rfindPair (sliceBytes bs a b) t1 t2 = some i) :
    bs[a + i]? = some t1 ∧ bs[a + i + 1]? = some t2 ∧ a + i + 1 < b := by
  obtain ⟨h1, h2⟩ := rfindPair_some _ t1 t2 i h
  have hlen : i + 1 < (sliceBytes bs a b).length := (List.getElem?_eq_some_iff.1 h2).fst
  rw [sliceBytes_length] at hlen
  have hib : i + 1 < b - a := lt_of_lt_of_le hlen (min_le_left _ _)
  refine ⟨?_, ?_, by omega⟩
  · rw [← sliceBytes_get bs a b i (by omega)]
    exact h1
  · rw [show a + i + 1 = a + (i + 1) by omega, ← sliceBytes_get bs a b (i + 1) hib]
    exact h2

/-- The pair hit is the last adjacent occurrence in the window, in absolute
coordinates. -/
theorem rfindPair_window_last (bs : List Nat) (a b t1 t2 i : Nat)
    (h : rfindPair (sliceBytes bs a b) t1 t2 = some i) :
    ∀ p, a ≤ p → p + 1 < b → bs[p]? = some t1 → bs[p + 1]? = some t2 → p ≤ a + i := by
  intro p hap hpb h1 h2
  have hs1 : (sliceBytes bs a b)[p - a]? = some t1 := by
    rw [sliceBytes_get bs a b (p - a) (by omega), show a + (p - a) = p by omega]
    exact h1
  have hs2 : (sliceBytes bs a b)[p - a + 1]? = some t2 := by
    rw [sliceBytes_get bs a b (p - a + 1) (by omega), show a + (p - a + 1) = p + 1 by omega]
    exact h2
  have := rfindPair_last _ t1 t2 i h (p - a) hs1 hs2
  omega

/-- An absolute adjacent occurrence inside the window forces a pair hit. -/
theorem rfindPair_window_found (bs : List Nat) (a b t1 t2 p : Nat)
    (hap : a ≤ p) (hpb : p + 1 < b) (h1 : bs[p]? = some t1) (h2 : bs[p + 1]? = some t2) :
    ∃ i, rfindPair (sliceBytes bs a b) t1 t2 = some i := by
  have hs1 : (sliceBytes bs a b)[p - a]? = some t1 := by
    rw [sliceBytes_get bs a b (p - a) (by omega), show a + (p - a) = p by omega]
    exact h1
  have hs2 : (sliceBytes bs a b)[p - a + 1]? = some t2 := by
    rw [sliceBytes_get bs a b (p - a + 1) (by omega), show a + (p - a + 1) = p + 1 by omega]
    exact h2
  exact rfindPair_found _ t1 t2 (p - a) hs1 hs2

/-- The split never moves below the window start. -/
theorem splitPos_ge (bs : List Nat) (s e : Nat) (hse : s ≤ e) : s ≤ splitPos bs s e := by
  rw [splitPos_eq]
  cases h1 : rfindByte (sliceBytes bs s e) 10 with
  | some i =>
    show s ≤ s + i + 1
    omega
  | none =>
    cases h2 : rfindPair (sliceBytes bs s e) 46 32 with
    | some i =>
      show s ≤ s + i + 1
      omega
    | none =>
      cases h3 : rfindByte (sliceBytes bs s e) 32 with
      | some i =>
        show s ≤ s + i + 1
        omega
      | none => exact hse

/-- The split never exceeds the window end. -/
theorem splitPos_le (bs : List Nat) (s e : Nat) : splitPos bs s e ≤ e := by
  rw [splitPos_eq]
  cases h1 : rfindByte (sliceBytes bs s e) 10 with
  | some i =>
    show s + i + 1 ≤ e
    have := (rfindByte_window_some bs s e 10 i h1).2
    omega
  | none =>
    cases h2 : rfindPair (sliceBytes bs s e) 46 32 with
    | some i =>
      show s + i + 1 ≤ e
      have := (rfindPair_window_some bs s e 46 32 i h2).2.2
      omega
    | none =>
      cases h3 : rfindByte (sliceBytes bs s e) 32 with
      | some i =>
        show s + i + 1 ≤ e
        have := (rfindByte_window_some bs s e 32 i h3).2
        omega
      | none => exact le_rfl

/-- On valid bytes the split lands on a character boundary whenever the window
end is one. -/
theorem splitPos_bd (bs : List Nat) (s e : Nat) (hv : isValidUtf8 bs = true)
    (hbde : isCharBoundary bs e = true) :
    isCharBoundary bs (splitPos bs s e) = true := by
  have hv2 : ∃ k, validAux k bs = true := ⟨0, hv⟩
  rw [splitPos_eq]
  cases h1 : rfindByte (sliceBytes bs s e) 10 with
  | some i =>
    show isCharBoundary bs (s + i + 1) = true
    exact valid_after_ascii bs hv2 (s + i) 10 (rfindByte_window_some bs s e 10 i h1).1 (by omega)
  | none =>
    cases h2 : rfindPair (sliceBytes bs s e) 46 32 with
    | some i =>
      show isCharBoundary bs (s + i + 1) = true
      exact valid_after_ascii bs hv2 (s + i) 46 (rfindPair_window_some bs s e 46 32 i h2).1 (by omega)
    | none =>
      cases h3 : rfindByte (sliceBytes bs s e) 32 with
      | some i =>
        show isCharBoundary bs (s + i + 1) = true
        exact valid_after_ascii bs hv2 (s + i) 32 (rfindByte_window_some bs s e 32 i h3).1 (by omega)
      | none => exact hbde

/-- The forward snap never decreases its index. -/
theorem snapFwdAux_ge (bs : List Nat) (start : Nat) :
    ∀ k i, i ≤ snapFwdAux bs start k i := by
  intro k
  induction k with
  | zero => intro i; exact le_rfl
  | succ n ih =>
    intro i
    rw [snapFwdAux]
    split
    · exact le_trans (by omega) (ih (i + 1))
    · exact le_rfl

/-- The forward snap stops at or before any boundary at or after its start. -/
theorem snapFwdAux_le (bs : List Nat) (start : Nat) :
    ∀ k i j, i ≤ j → isCharBoundary bs j = true → snapFwdAux bs start k i ≤ j := by
  intro k
  induction k with
  | zero => intro i j hij _; exact hij
  | succ n ih =>
    intro i j hij hbd
    rw [snapFwdAux]
    split
    · rename_i hc
      simp only [Bool.and_eq_true, decide_eq_true_eq, Bool.not_eq_eq_eq_not, Bool.not_true] at hc
      have hne : i ≠ j := by
        intro h
        rw [h, hbd] at hc
        cases hc.2
      exact ih (i + 1) j (by omega) hbd
    · exact hij

/-- With enough fuel the forward snap lands on a boundary or at or below
`start`. -/
theorem snapFwdAux_bd (bs : List Nat) (start : Nat) :
    ∀ k i, i ≤ bs.length → bs.length + 1 ≤ i + k →
      isCharBoundary bs (snapFwdAux bs start k i) = true ∨ snapFwdAux bs start k i ≤ start := by
  intro k
  induction k with
  | zero => intro i h1 h2; omega
  | succ n ih =>
    intro i h1 h2
    rw [snapFwdAux]
    split
    · rename_i hc
      simp only [Bool.and_eq_true, decide_eq_true_eq, Bool.not_eq_eq_eq_not, Bool.not_true] at hc
      have hi : i ≠ bs.length := by
        intro h
        rw [h, bd_length bs] at hc
        cases hc.2
      exact ih (i + 1) (by omega) (by omega)
    · rename_i hc
      simp only [Bool.and_eq_true, decide_eq_true_eq, Bool.not_eq_eq_eq_not, Bool.not_true,
        not_and] at hc
      by_cases hb : isCharBoundary bs i = true
      · exact Or.inl hb
      · right
        rcases Nat.lt_or_ge start i with h | h
        · exact absurd (Bool.eq_false_iff.mpr hb) (hc h)
        · exact h

/-- `snapFwd` never decreases its index. -/
theorem snapFwd_ge (bs : List Nat) (start i : Nat) : i ≤ snapFwd bs start i := by
  unfold snapFwd
  exact snapFwdAux_ge bs start _ i

/-- `snapFwd` stops at or before any boundary at or after its start. -/
theorem snapFwd_le (bs : List Nat) (start i j : Nat) (hij : i ≤ j)
    (hbd : isCharBoundary bs j = true) : snapFwd bs start i ≤ j := by
  unfold snapFwd
  exact snapFwdAux_le bs start _ i j hij hbd

/-- `snapFwd` lands on a boundary or at or below `start`. -/
theorem snapFwd_bd (bs : List Nat) (start i : Nat) (hi : i ≤ bs.length) :
    isCharBoundary bs (snapFwd bs start i) = true ∨ snapFwd bs start i ≤ start := by
  unfold snapFwd
  exact snapFwdAux_bd bs start _ i hi (by omega)

/-- The heart of coverage: a later, no-shorter window never cuts before an
earlier one.  `s ≤ s'`, `s' ≤ splitPos bs s e` and `e ≤ e'` force
`splitPos bs s e ≤ splitPos bs s' e'`: a hit of higher priority in the later
window lies at or beyond the earlier window's end, and a hit of the same
priority lies at or beyond the earlier hit. -/
theorem splitPos_mono (bs : List Nat) (s e s' e' : Nat)
    (hss : s ≤ s') (hs' : s' ≤ splitPos bs s e) (hee : e ≤ e') :
    splitPos bs s e ≤ splitPos bs s' e' := by
  cases h1 : rfindByte (sliceBytes bs s e) 10 with
  | some i =>
    have hsig : splitPos bs s e = s + i + 1 := by rw [splitPos_eq, h1]
    obtain ⟨hq, hqe⟩ := rfindByte_window_some bs s e 10 i h1
    rw [hsig] at hs'
    rw [hsig]
    rcases Nat.lt_or_ge (s + i) s' with hb | ha
    · have hge := splitPos_ge bs s' e' (by omega)
      omega
    · obtain ⟨i2, h2⟩ := rfindByte_window_found bs s' e' 10 (s + i) ha (by omega) hq
      have hsig2 : splitPos bs s' e' = s' + i2 + 1 := by rw [splitPos_eq, h2]
      have hlast := rfindByte_window_last bs s' e' 10 i2 h2 (s + i) ha (by omega) hq
      omega
  | none =>
    cases h2 : rfindPair (sliceBytes bs s e) 46 32 with
    | some i =>
      have hsig : splitPos bs s e = s + i + 1 := by rw [splitPos_eq, h1, h2]
      obtain ⟨hq1, hq2, hqe⟩ := rfindPair_window_some bs s e 46 32 i h2
      rw [hsig] at hs'
      rw [hsig]
      cases h1' : rfindByte (sliceBytes bs s' e') 10 with
      | some i1 =>
        have hsig2 : splitPos bs s' e' = s' + i1 + 1 := by rw [splitPos_eq, h1']
        obtain ⟨hp1, hp1e⟩ := rfindByte_window_some bs s' e' 10 i1 h1'
        rcases Nat.lt_or_ge (s' + i1) e with hlt | hge2
        · obtain ⟨i0, h0⟩ := rfindByte_window_found bs s e 10 (s' + i1) (by omega) hlt hp1
          rw [h0] at h1
          cases h1
        · omega
      | none =>
        cases h2' : rfindPair (sliceBytes bs s' e') 46 32 with
        | some i2 =>
          have hsig2 : splitPos bs s' e' = s' + i2 + 1 := by rw [splitPos_eq, h1', h2']
          rcases Nat.lt_or_ge (s + i) s' with hb | ha
          · omega
          · have hlast := rfindPair_window_last bs s' e' 46 32 i2 h2' (s + i) ha (by omega) hq1 hq2
            omega
        | none =>
          rcases Nat.lt_or_ge (s + i) s' with hb | ha
          · cases h3' : rfindByte (sliceBytes bs s' e') 32 with
            | some i3 =>
              have hsig2 : splitPos bs s' e' = s' + i3 + 1 := by rw [splitPos_eq, h1', h2', h3']
              omega
            | none =>
              have hsig2 : splitPos bs s' e' = e' := by rw [splitPos_eq, h1', h2', h3']
              omega
          · obtain ⟨i0, h0⟩ := rfindPair_window_found bs s' e' 46 32 (s + i) ha (by omega) hq1 hq2
            rw [h0] at h2'
            cases h2'
    | none =>
      cases h3 : rfindByte (sliceBytes bs s e) 32 with
      | some i =>
        have hsig : splitPos bs s e = s + i + 1 := by rw [splitPos_eq, h1, h2, h3]
        obtain ⟨hq, hqe⟩ := rfindByte_window_some bs s e 32 i h3
        rw [hsig] at hs'
        rw [hsig]
        cases h1' : rfindByte (sliceBytes bs s' e') 10 with
        | some i1 =>
          have hsig2 : splitPos bs s' e' = s' + i1 + 1 := by rw [splitPos_eq, h1']
          obtain ⟨hp1, hp1e⟩ := rfindByte_window_some bs s' e' 10 i1 h1'
          rcases Nat.lt_or_ge (s' + i1) e with hlt | hge2
          · obtain ⟨i0, h0⟩ := rfindByte_window_found bs s e 10 (s' + i1) (by omega) hlt hp1
            rw [h0] at h1
            cases h1
          · omega
        | none =>
          cases h2' : rfindPair (sliceBytes bs s' e') 46 32 with
          | some i2 =>
            have hsig2 : splitPos bs s' e' = s' + i2 + 1 := by rw [splitPos_eq, h1', h2']
            obtain ⟨hp1, hp2, hp2e⟩ := rfindPair_window_some bs s' e' 46 32 i2 h2'
            rcases Nat.lt_or_ge (s' + i2 + 1) e with hlt | hge2
            · obtain ⟨i0, h0⟩ := rfindPair_window_found bs s e 46 32 (s' + i2) (by omega) hlt hp1 hp2
              rw [h0] at h2
              cases h2
            · omega
          | none =>
            cases h3' : rfindByte (sliceBytes bs s' e') 32 with
            | some i3 =>
              have hsig2 : splitPos bs s' e' = s' + i3 + 1 := by rw [splitPos_eq, h1', h2', h3']
              rcases Nat.lt_or_ge (s + i) s' with hb | ha
              · omega
              · have hlast := rfindByte_window_last bs s' e' 32 i3 h3' (s + i) ha (by omega) hq
                omega
            | none =>
              have hsig2 : splitPos bs s' e' = e' := by rw [splitPos_eq, h1', h2', h3']
              rcases Nat.lt_or_ge (s + i) s' with hb | ha
              · omega
              · obtain ⟨i0, h0⟩ := rfindByte_window_found bs s' e' 32 (s + i) ha (by omega) hq
                rw [h0] at h3'
                cases h3'
      | none =>
        have hsig : splitPos bs s e = e := by rw [splitPos_eq, h1, h2, h3]
        rw [hsig] at hs'
        rw [hsig]
        cases h1' : rfindByte (sliceBytes bs s' e') 10 with
        | some i1 =>
          have hsig2 : splitPos bs s' e' = s' + i1 + 1 := by rw [splitPos_eq, h1']
          obtain ⟨hp1, hp1e⟩ := rfindByte_window_some bs s' e' 10 i1 h1'
          rcases Nat.lt_or_ge (s' + i1) e with hlt | hge2
          · obtain ⟨i0, h0⟩ := rfindByte_window_found bs s e 10 (s' + i1) (by omega) hlt hp1
            rw [h0] at h1
            cases h1
          · omega
        | none =>
          cases h2' : rfindPair (sliceBytes bs s' e') 46 32 with
          | some i2 =>
            have hsig2 : splitPos bs s' e' = s' + i2 + 1 := by rw [splitPos_eq, h1', h2']
            obtain ⟨hp1, hp2, hp2e⟩ := rfindPair_window_some bs s' e' 46 32 i2 h2'
            rcases Nat.lt_or_ge (s' + i2 + 1) e with hlt | hge2
            · obtain ⟨i0, h0⟩ := rfindPair_window_found bs s e 46 32 (s' + i2) (by omega) hlt hp1 hp2
              rw [h0] at h2
              cases h2
            · omega
          | none =>
            cases h3' : rfindByte (sliceBytes bs s' e') 32 with
            | some i3 =>
              have hsig2 : splitPos bs s' e' = s' + i3 + 1 := by rw [splitPos_eq, h1', h2', h3']
              obtain ⟨hp3, hp3e⟩ := rfindByte_window_some bs s' e' 32 i3 h3'
              rcases Nat.lt_or_ge (s' + i3) e with hlt | hge2
              · obtain ⟨i0, h0⟩ := rfindByte_window_found bs s e 32 (s' + i3) (by omega) hlt hp3
                rw [h0] at h3
                cases h3
              · omega
            | none =>
              have hsig2 : splitPos bs s' e' = e' := by rw [splitPos_eq, h1', h2', h3']
              omega

/-- Unfolded form of one loop iteration. -/
theorem chunkStep_eq (bs : List Nat) (maxB ovB s : Nat) :
    chunkStep bs maxB ovB s =
      if bs.length ≤ snapEnd bs (min (s + maxB) bs.length) then Sum.inl (bs.drop s)
      else
        Sum.inr (sliceBytes bs s (splitPos bs s (snapEnd bs (min (s + maxB) bs.length))),
          snapFwd bs s (splitPos bs s (snapEnd bs (min (s + maxB) bs.length)) -
            min ovB (splitPos bs s (snapEnd bs (min (s + maxB) bs.length)) - s))) := rfl

/-- Unfolded form of the loop at positive fuel. -/
theorem chunkLoop_succ (bs : List Nat) (maxB ovB fuel s : Nat) :
    chunkLoop bs maxB ovB (fuel + 1) s =
      if s < bs.length then
        match chunkStep bs maxB ovB s with
        | Sum.inl final => some [final]
        | Sum.inr (c, s2) => (chunkLoop bs maxB ovB fuel s2).map (c :: ·)
      else some [] := rfl

/-- The first chunk of any successful run from `s2` extends at least to the
split point of any earlier window reaching at most as far. -/
theorem chunkLoop_head_ge (bs : List Nat) (maxB ovB s fuel s2 : Nat) (c2 : List Nat)
    (rest : List (List Nat))
    (h : chunkLoop bs maxB ovB fuel s2 = some (c2 :: rest))
    (hss2 : s ≤ s2)
    (hs2 : s2 ≤ splitPos bs s (snapEnd bs (min (s + maxB) bs.length)))
    (hlen : splitPos bs s (snapEnd bs (min (s + maxB) bs.length)) ≤ bs.length) :
    splitPos bs s (snapEnd bs (min (s + maxB) bs.length)) - s2 ≤ c2.length := by
  cases fuel with
  | zero => cases h
  | succ f =>
    rw [chunkLoop_succ] at h
    by_cases hs2lt : s2 < bs.length
    · rw [if_pos hs2lt] at h
      split at h
      · rename_i final heq
        injection h with h1
        injection h1 with hc hr
        rw [chunkStep_eq] at heq
        split at heq
        · injection heq with h2
          rw [← hc, ← h2, List.length_drop]
          omega
        · cases heq
      · rename_i c s3 heq
        rw [Option.map_eq_some'] at h
        obtain ⟨L2, hL2, hcons⟩ := h
        injection hcons with hc hr
        rw [chunkStep_eq] at heq
        split at heq
        · cases heq
        · injection heq with h2
          injection h2 with hcs hs3
          rw [← hc, ← hcs, sliceBytes_length]
          have hmono : splitPos bs s (snapEnd bs (min (s + maxB) bs.length)) ≤
              splitPos bs s2 (snapEnd bs (min (s2 + maxB) bs.length)) := by
            refine splitPos_mono bs s (snapEnd bs (min (s + maxB) bs.length)) s2
              (snapEnd bs (min (s2 + maxB) bs.length)) hss2 hs2 ?_
            exact snapEnd_mono bs _ _ (by omega)
          omega
    · rw [if_neg hs2lt] at h
      injection h with h1
      cases h1

/-- A successful run from a character boundary yields a `Cover`. -/
theorem chunkLoop_cover (bs : List Nat) (maxB ovB : Nat) (hv : isValidUtf8 bs = true) :
    ∀ fuel s L, isCharBoundary bs s = true →
      chunkLoop bs maxB ovB fuel s = some L → Cover bs s L := by
  intro fuel
  induction fuel with
  | zero => intro s L _ h; cases h
  | succ f ih =>
    intro s L hbds h
    rw [chunkLoop_succ] at h
    by_cases hs : s < bs.length
    · rw [if_pos hs] at h
      split at h
      · rename_i final heq
        injection h with h1
        subst h1
        rw [chunkStep_eq] at heq
        split at heq
        · injection heq with h2
          rw [← h2]
          exact Cover.single s hs
        · cases heq
      · rename_i c s2 heq
        rw [Option.map_eq_some'] at h
        obtain ⟨L2, hL2, hcons⟩ := h
        subst hcons
        rw [chunkStep_eq] at heq
        split at heq
        · cases heq
        · rename_i hcond
          injection heq with h2
          injection h2 with hcs hs2
          subst hcs
          subst hs2
          have hse : s ≤ snapEnd bs (min (s + maxB) bs.length) :=
            snapEnd_ge bs s hbds _ (by omega)
          have hbde : isCharBoundary bs (snapEnd bs (min (s + maxB) bs.length)) = true :=
            snapEnd_bd bs _ (by omega)
          have hsp_ge : s ≤ splitPos bs s (snapEnd bs (min (s + maxB) bs.length)) :=
            splitPos_ge bs s _ hse
          have hsp_le : splitPos bs s (snapEnd bs (min (s + maxB) bs.length)) ≤
              snapEnd bs (min (s + maxB) bs.length) := splitPos_le bs s _
          have hsp_bd : isCharBoundary bs
              (splitPos bs s (snapEnd bs (min (s + maxB) bs.length))) = true :=
            splitPos_bd bs s _ hv hbde
          have hsp_lt : splitPos bs s (snapEnd bs (min (s + maxB) bs.length)) < bs.length := by
            omega
          have hsf_ge : splitPos bs s (snapEnd bs (min (s + maxB) bs.length)) -
              min ovB (splitPos bs s (snapEnd bs (min (s + maxB) bs.length)) - s) ≤
              snapFwd bs s (splitPos bs s (snapEnd bs (min (s + maxB) bs.length)) -
                min ovB (splitPos bs s (snapEnd bs (min (s + maxB) bs.length)) - s)) :=
            snapFwd_ge bs s _
          have hsf_le : snapFwd bs s (splitPos bs s (snapEnd bs (min (s + maxB) bs.length)) -
              min ovB (splitPos bs s (snapEnd bs (min (s + maxB) bs.length)) - s)) ≤
              splitPos bs s (snapEnd bs (min (s + maxB) bs.length)) :=
            snapFwd_le bs s _ _ (by omega) hsp_bd
          have hss2 : s ≤ snapFwd bs s (splitPos bs s (snapEnd bs (min (s + maxB) bs.length)) -
              min ovB (splitPos bs s (snapEnd bs (min (s + maxB) bs.length)) - s)) := by
            omega
          have hbds2 : isCharBoundary bs
              (snapFwd bs s (splitPos bs s (snapEnd bs (min (s + maxB) bs.length)) -
                min ovB (splitPos bs s (snapEnd bs (min (s + maxB) bs.length)) - s))) = true := by
            rcases snapFwd_bd bs s (splitPos bs s (snapEnd bs (min (s + maxB) bs.length)) -
                min ovB (splitPos bs s (snapEnd bs (min (s + maxB) bs.length)) - s))
                (by omega) with hb | hb
            · exact hb
            · have heqs : snapFwd bs s (splitPos bs s (snapEnd bs (min (s + maxB) bs.length)) -
                  min ovB (splitPos bs s (snapEnd bs (min (s + maxB) bs.length)) - s)) = s := by
                omega
              rw [heqs]
              exact hbds
          have hcov2 := ih _ L2 hbds2 hL2
          cases L2 with
          | nil =>
            cases hcov2
            rename_i hlen2
            omega
          | cons c2 rest2 =>
            exact Cover.cons s _ _ c2 rest2 hsp_ge hsf_le hss2 hsp_lt hcov2
              (chunkLoop_head_ge bs maxB ovB s f _ c2 rest2 hL2 hss2 hsf_le (by omega))
    · rw [if_neg hs] at h
      injection h with h1
      subst h1
      exact Cover.nil s (by omega)

/-- The head chunk of a `Cover` is a prefix of the text from its start. -/
theorem cover_head_prefix (bs : List Nat) (s : Nat) (c : List Nat) (rest : List (List Nat))
    (hcov : Cover bs s (c :: rest)) :
    ∀ o, o ≤ c.length → c.take o = (bs.drop s).take o := by
  intro o ho
  cases hcov with
  | single _ _ => rfl
  | cons _ sig s2 c2 rest2 h1 h2 h3 h4 h5 h6 =>
    have hlen : (sliceBytes bs s sig).length ≤ sig - s := by
      rw [sliceBytes_length]
      omega
    rw [show sliceBytes bs s sig = (bs.drop s).take (sig - s) from rfl, List.take_take]
    congr 1
    rw [sliceBytes_length] at ho
    omega

/-- Every `Cover` reconstructs the text from its start position: there are
overlap widths, one per adjacent pair, that pass the sharing check and whose
removal re-concatenates to the original suffix. -/
theorem cover_recon (bs : List Nat) :
    ∀ s L, Cover bs s L → ∃ os, agreeWith L os = true ∧ reconWith L os = bs.drop s := by
  intro s L hcov
  induction hcov with
  | nil s2 hlen =>
    refine ⟨[], rfl, ?_⟩
    exact (List.drop_eq_nil_of_le hlen).symm
  | single s2 hs2 =>
    refine ⟨[], rfl, ?_⟩
    show bs.drop s2 ++ reconTail [] [] = bs.drop s2
    simp [reconTail]
  | cons s2 sig s3 c2 rest2 h1 h2 h3 h4 hcov2 h6 ih =>
    obtain ⟨os, hagree, hrecon⟩ := ih
    have hc1len : (sliceBytes bs s2 sig).length = sig - s2 := by
      rw [sliceBytes_length]
      omega
    have htake : c2.take (sig - s3) = (bs.drop s3).take (sig - s3) :=
      cover_head_prefix bs s3 c2 rest2 hcov2 (sig - s3) h6
    have hdrop : (sliceBytes bs s2 sig).drop ((sliceBytes bs s2 sig).length - (sig - s3)) =
        (bs.drop s3).take (sig - s3) := by
      rw [hc1len, show sliceBytes bs s2 sig = (bs.drop s2).take (sig - s2) from rfl,
        List.drop_take, List.drop_drop,
        show sig - s2 - (sig - s2 - (sig - s3)) = sig - s3 by omega,
        show s2 + (sig - s2 - (sig - s3)) = s3 by omega]
    refine ⟨(sig - s3) :: os, ?_, ?_⟩
    · show (decide (sig - s3 ≤ (sliceBytes bs s2 sig).length) && decide (sig - s3 ≤ c2.length) &&
        (c2.take (sig - s3) == (sliceBytes bs s2 sig).drop
          ((sliceBytes bs s2 sig).length - (sig - s3))) &&
        agreeWith (c2 :: rest2) os) = true
      rw [hdrop, htake, hagree]
      simp only [Bool.and_true, Bool.and_eq_true, decide_eq_true_eq, beq_self_eq_true,
        and_true]
      constructor
      · rw [hc1len]
        omega
      · exact h6
    · show sliceBytes bs s2 sig ++ (c2.drop (sig - s3) ++ reconTail rest2 os) = bs.drop s2
      have hrecon2 : c2 ++ reconTail rest2 os = bs.drop s3 := hrecon
      have hsplit : c2.drop (sig - s3) ++ reconTail rest2 os =
          (c2 ++ reconTail rest2 os).drop (sig - s3) :=
        (List.drop_append_of_le_length h6).symm
      rw [hsplit, hrecon2, List.drop_drop, show s3 + (sig - s3) = sig by omega,
        show sliceBytes bs s2 sig = (bs.drop s2).take (sig - s2) from rfl,
        show bs.drop sig = (bs.drop s2).drop (sig - s2) by
          rw [List.drop_drop]
          congr 1
          omega,
        List.take_append_drop]

/-- Every chunk a successful run produces is at most `maxB` bytes long. -/
theorem chunkLoop_len (bs : List Nat) (maxB ovB : Nat) :
    ∀ fuel s L, chunkLoop bs maxB ovB fuel s = some L →
      ∀ c ∈ L, c.length ≤ maxB := by
  intro fuel
  induction fuel with
  | zero => intro s L h; cases h
  | succ f ih =>
    intro s L h c hc
    rw [chunkLoop_succ] at h
    by_cases hs : s < bs.length
    · rw [if_pos hs] at h
      split at h
      · rename_i final heq
        injection h with h1
        subst h1
        rw [chunkStep_eq] at heq
        split at heq
        · rename_i hcond
          injection heq with h2
          rcases List.mem_singleton.1 hc with rfl
          rw [← h2, List.length_drop]
          have := snapEnd_le bs (min (s + maxB) bs.length)
          omega
        · cases heq
      · rename_i c2 s2 heq
        rw [Option.map_eq_some'] at h
        obtain ⟨L2, hL2, hcons⟩ := h
        subst hcons
        rw [chunkStep_eq] at heq
        split at heq
        · cases heq
        · injection heq with h2
          injection h2 with hcs hs2
          rcases List.mem_cons.1 hc with rfl | hmem
          · rw [← hcs, sliceBytes_length]
            have h1 := splitPos_le bs s (snapEnd bs (min (s + maxB) bs.length))
            have h2b := snapEnd_le bs (min (s + maxB) bs.length)
            omega
          · exact ih s2 L2 hL2 c hmem
    · rw [if_neg hs] at h
      injection h with h1
      subst h1
      cases hc

/-- C3: for every text (as structurally valid UTF-8 bytes) and every
`(max_bytes, overlap_bytes)` on which `chunk_with_overlap` terminates, the
produced chunks cover the input: every chunk is at most `max_bytes` bytes
long, and there are per-gap overlap widths — each verified to be text genuinely
shared with the predecessor chunk — whose removal re-concatenates the chunks
to exactly the original byte sequence. -/
theorem c3_chunk_cover (bs : List Nat) (maxB ovB fuel : Nat) (L : List (List Nat))
    (hv : isValidUtf8 bs = true)
    (h : chunk_with_overlap bs maxB ovB fuel = some L) :
    (∀ c ∈ L, c.length ≤ maxB) ∧
      ∃ os, agreeWith L os = true ∧ reconWith L os = bs := by
  have hcov := chunkLoop_cover bs maxB ovB hv fuel 0 L (bd_zero bs) h
  refine ⟨chunkLoop_len bs maxB ovB fuel 0 L h, ?_⟩
  obtain ⟨os, h1, h2⟩ := cover_recon bs 0 L hcov
  exact ⟨os, h1, by simpa using h2⟩

/-- Concrete instance of C3: chunking the ten ASCII bytes of `"ABCDEFGHIJ"`
with `max_bytes = 5`, `overlap_bytes = 2` terminates with three chunks that
satisfy the bound and reconstruct the text. -/
theorem c3_witness :
    (∀ c ∈ [[65, 66, 67, 68, 69], [68, 69, 70, 71, 72], [71, 72, 73, 74]],
      List.length c ≤ 5) ∧
      ∃ os, agreeWith [[65, 66, 67, 68, 69], [68, 69, 70, 71, 72], [71, 72, 73, 74]] os = true ∧
        reconWith [[65, 66, 67, 68, 69], [68, 69, 70, 71, 72], [71, 72, 73, 74]] os =
          utf8Str "ABCDEFGHIJ" :=
  c3_chunk_cover (utf8Str "ABCDEFGHIJ") 5 2 10
    [[65, 66, 67, 68, 69], [68, 69, 70, 71, 72], [71, 72, 73, 74]]
    (by decide) (by decide)
